import Mathlib

/-!
Verification of the task-dependency plugin core (`src/main.ts`): the
checklist-line parser, the task-collection builder `getTasksFromNotes`, the
graph projection of `renderGraph`, and the two markdown mutators
`toggleTaskCompletion` and `updateTaskDependency`.

JavaScript strings are modelled as `List Char`.  Documents are the string
contents of the vault's markdown files, in the order the vault returns them;
a corpus is the list of those contents.
-/

namespace TaskPlugin

/-- JavaScript strings are modelled as lists of characters. -/
abbrev Str := List Char

/-- Whitespace recognised by `String.prototype.trim` (the characters that can
actually occur in our development). -/
def isWsChar (c : Char) : Bool := c = ' ' || c = '\t' || c = '\n' || c = '\r'

/-- Remove leading whitespace. -/
def trimLeft (l : Str) : Str := l.dropWhile isWsChar

/-- Remove trailing whitespace. -/
def trimRight (l : Str) : Str := (l.reverse.dropWhile isWsChar).reverse

/-- JavaScript `String.prototype.trim`. -/
def trim (l : Str) : Str := trimRight (trimLeft l)

/-- JavaScript `content.split('\n')`. -/
def splitNl : Str → List Str
  | [] => [[]]
  | c :: cs =>
    if c = '\n' then [] :: splitNl cs
    else
      match splitNl cs with
      | [] => [[c]]
      | l :: ls => (c :: l) :: ls

/-- The accumulation `updatedContent += line + '\n'` over a list of lines. -/
def joinLines (ls : List Str) : Str := (ls.map (fun l => l ++ ['\n'])).flatten

/-- JavaScript `String.prototype.replace` with a plain-string pattern:
replace the first occurrence of `pat` by `rep`. -/
def replaceFirst (pat rep : Str) : Str → Str
  | [] => if pat = [] then rep else []
  | c :: cs =>
    if pat <+: (c :: cs) then rep ++ (c :: cs).drop pat.length
    else c :: replaceFirst pat rep cs

/-- The five-character marker `- [ ]` used by `line.startsWith('- [ ]')`. -/
def marker0 : Str := "- [ ]".data

/-- The five-character marker `- [x]` used by `line.startsWith('- [x]')` and
`line.includes('- [x]')`. -/
def markerX : Str := "- [x]".data

/-- The six-character prefix `- [ ] ` of the task regex. -/
def marker0s : Str := "- [ ] ".data

/-- The six-character prefix `- [x] ` of the task regex. -/
def markerXs : Str := "- [x] ".data

/-- The character class `\w` of JavaScript regexes: ASCII letters, digits
and underscore. -/
def isWordChar (c : Char) : Bool := c.isAlphanum || c = '_'

/-- The regex metacharacter `.`: any character except a line terminator. -/
def isDotChar (c : Char) : Bool := !(c = '\n' || c = '\r')

/-- The match of `line` against the task regex (dash, space, bracketed
space-or-x, space, then the capture `(.+)`): scan for the first position where a
checklist marker is followed by at least one `.`-matchable character and
return the capture (the maximal `.+` run after the marker). -/
def taskMatch : Str → Option Str
  | [] => none
  | c :: cs =>
    let cap := ((c :: cs).drop 6).takeWhile isDotChar
    if (marker0s <+: (c :: cs) ∨ markerXs <+: (c :: cs)) ∧ cap ≠ [] then some cap
    else taskMatch cs

/-- Attempt the regex `\[id:(\w+)\]` at the head of the string. -/
def idCapAt (l : Str) : Option Str :=
  if "[id:".data <+: l then
    let rest := l.drop 4
    let run := rest.takeWhile isWordChar
    if run ≠ [] ∧ (rest.drop run.length).head? = some ']' then some run else none
  else none

/-- `taskName.match(/\[id:(\w+)\]/)`: the capture of the first match. -/
def findIdTag : Str → Option Str
  | [] => none
  | c :: cs =>
    match idCapAt (c :: cs) with
    | some w => some w
    | none => findIdTag cs

/-- Attempt the regex `\[dependsOn:(\w+)\]` at the head of the string. -/
def depCapAt (l : Str) : Option Str :=
  if "[dependsOn:".data <+: l then
    let rest := l.drop 11
    let run := rest.takeWhile isWordChar
    if run ≠ [] ∧ (rest.drop run.length).head? = some ']' then some run else none
  else none

/-- Worker for `findDepTags`; the fuel argument (at least the length of the
string) makes the recursion structural so that it reduces in the kernel. -/
def findDepTagsAux : Nat → Str → List Str
  | 0, _ => []
  | _, [] => []
  | fuel + 1, c :: cs =>
    match depCapAt (c :: cs) with
    | some w => w :: findDepTagsAux fuel ((c :: cs).drop (12 + w.length))
    | none => findDepTagsAux fuel cs

/-- `taskName.match(/\[dependsOn:(\w+)\]/g)` followed by `.slice(11, -1)` on
every match: the captures of all (non-overlapping, left-to-right) matches. -/
def findDepTags (l : Str) : List Str := findDepTagsAux l.length l

/-- Worker for `stripTags`; the fuel argument (at least the length of the
string) makes the recursion structural so that it reduces in the kernel. -/
def stripTagsAux : Nat → Str → Str
  | 0, l => l
  | _, [] => []
  | fuel + 1, c :: cs =>
    if c = '[' then
      let run := cs.takeWhile (fun d => !(d = ']'))
      if run ≠ [] ∧ (cs.drop run.length).head? = some ']' then
        stripTagsAux fuel (cs.drop (run.length + 1))
      else c :: stripTagsAux fuel cs
    else c :: stripTagsAux fuel cs

/-- `taskName.replace(/\[[^\]]+\]/g, '')`: delete every bracketed run
`[` + one or more non-`]` characters + `]`. -/
def stripTags (l : Str) : Str := stripTagsAux l.length l

/-- The per-line candidate record built inside the loop of
`getTasksFromNotes` (lines 74–83 of `src/main.ts`), before identity
resolution and deduplication. -/
structure RawTask where
  expId : Option Str
  name : Str
  deps : List Str
  completed : Bool
deriving DecidableEq

/-- The Task Line Parser: the per-line part of `getTasksFromNotes`.
Returns `none` when the task-regex match (`taskMatch`) fails. -/
def parseLine (line : Str) : Option RawTask :=
  match taskMatch line with
  | none => none
  | some cap =>
    let taskName := trim cap
    some { expId := findIdTag taskName
         , name := trim (stripTags taskName)
         , deps := findDepTags taskName
         , completed := decide (markerX <:+: line) }

/-- Decimal representation of a natural number (the digits of the template
string `task${uniqueId++}`), with explicit fuel for structural recursion. -/
def natDecAux : Nat → Nat → Str
  | 0, _ => []
  | fuel + 1, n => if n = 0 then [] else natDecAux fuel (n / 10) ++ [Nat.digitChar (n % 10)]

/-- Decimal representation of a natural number. -/
def natDec (n : Nat) : Str := if n = 0 then ['0'] else natDecAux n n

/-- The synthesized identity `task${uniqueId}`. -/
def taskStr (n : Nat) : Str := "task".data ++ natDec n

/-- Read a digit string back as a number (proof-side left inverse of
`natDec`, used to show synthesized identities are pairwise distinct). -/
def decVal (l : Str) : Nat := l.foldl (fun a c => 10 * a + (c.toNat - 48)) 0

/-- The Task record of `src/main.ts`. -/
structure Task where
  id : Str
  name : Str
  dependencies : List Str
  completed : Bool
deriving DecidableEq

/-- The loop state of `getTasksFromNotes`: the counter `uniqueId`, the set
`taskIds` (as a list of the ids added, most recent first) and the array
`tasks`. -/
structure BState where
  uid : Nat
  seen : List Str
  acc : List Task
deriving DecidableEq

/-- One iteration of the line loop of `getTasksFromNotes`: parse the line,
resolve the identity (explicit tag value, or `task${uniqueId++}`), and push
the task unless the identity was already seen. -/
def step (st : BState) (line : Str) : BState :=
  match parseLine line with
  | none => st
  | some r =>
    let p : Str × Nat :=
      match r.expId with
      | some w => (w, st.uid)
      | none => (taskStr st.uid, st.uid + 1)
    if p.1 ∈ st.seen then { st with uid := p.2 }
    else { uid := p.2, seen := p.1 :: st.seen
         , acc := st.acc ++ [{ id := p.1, name := r.name
                             , dependencies := r.deps, completed := r.completed }] }

/-- The full loop of `getTasksFromNotes` over the corpus, starting from
`uniqueId = 1`, empty `taskIds` and empty `tasks`. -/
def buildState (corpus : List Str) : BState :=
  corpus.foldl (fun st d => (splitNl d).foldl step st) ⟨1, [], []⟩

/-- `getTasksFromNotes`: the Task collection extracted from the corpus. -/
def getTasksFromNotes (corpus : List Str) : List Task := (buildState corpus).acc

/-- A node handed to the display collaborator by `renderGraph`. -/
structure GNode where
  id : Str
  label : Str
  color : Str
deriving DecidableEq

/-- An edge handed to the display collaborator by `renderGraph`; `efrom` and
`eto` embed the `from` and `to` fields of the source (`from` is a Lean
keyword). -/
structure GEdge where
  efrom : Str
  eto : Str
deriving DecidableEq

/-- The node set built by `renderGraph`. -/
def nodesOf (tasks : List Task) : List GNode :=
  tasks.map (fun t =>
    { id := t.id, label := t.name
    , color := if t.completed then "#9BE7A4".data else "#E7A49B".data })

/-- The edge set built by `renderGraph`: one edge per dependency entry,
pointing from the dependency id to the dependent task's id. -/
def edgesOf (tasks : List Task) : List GEdge :=
  (tasks.map (fun t => t.dependencies.map (fun d => { efrom := d, eto := t.id : GEdge }))).flatten

/-- The literal substring `[id:<taskId>]`. -/
def idTagStr (taskId : Str) : Str := "[id:".data ++ taskId ++ "]".data

/-- The literal substring `[dependsOn:<depId>]`. -/
def depTagStr (depId : Str) : Str := "[dependsOn:".data ++ depId ++ "]".data

/-- The per-line body of the loop of `toggleTaskCompletion`. -/
def toggleLine (taskId : Str) (line : Str) : Str :=
  if idTagStr taskId <:+: line then
    if marker0 <+: line then replaceFirst marker0 markerX line
    else if markerX <+: line then replaceFirst markerX marker0 line
    else line
  else line

/-- The per-document effect of `toggleTaskCompletion`: rebuild the content
line by line and write back `updatedContent.trim()`. -/
def toggleDoc (taskId : Str) (content : Str) : Str :=
  trim (joinLines ((splitNl content).map (toggleLine taskId)))

/-- `toggleTaskCompletion` as a corpus transformer: the loop body runs for
every file and `vault.modify` is called on every file. -/
def toggleTaskCompletion (taskId : Str) (corpus : List Str) : List Str :=
  corpus.map (toggleDoc taskId)

/-- The write operations issued by `toggleTaskCompletion`: one
`vault.modify(file, updatedContent.trim())` per file, unconditionally, in
corpus order (pairs of file index and written content). -/
def toggleWrites (taskId : Str) (corpus : List Str) : List (Nat × Str) :=
  corpus.enum.map (fun p => (p.1, toggleDoc taskId p.2))

/-- The per-line body of the loop of `updateTaskDependency`: on lines
containing `[id:<toId>]` without `[dependsOn:<fromId>]`, the call
`line.replace(/\]$/, ' [dependsOn:<fromId>]]')` replaces a final `]` by
` [dependsOn:<fromId>]]`. -/
def addDepLine (fromId toId : Str) (line : Str) : Str :=
  if idTagStr toId <:+: line then
    if depTagStr fromId <:+: line then line
    else if line.getLast? = some ']' then
      line.dropLast ++ (' ' :: depTagStr fromId) ++ [']']
    else line
  else line

/-- The per-document effect of `updateTaskDependency`. -/
def addDepDoc (fromId toId : Str) (content : Str) : Str :=
  trim (joinLines ((splitNl content).map (addDepLine fromId toId)))

/-- `updateTaskDependency` as a corpus transformer (every file is rewritten). -/
def updateTaskDependency (fromId toId : Str) (corpus : List Str) : List Str :=
  corpus.map (addDepDoc fromId toId)

/-- All lines of the corpus in document-then-line order (the order the
nested loops of `getTasksFromNotes` visit them). -/
def corpusLines (corpus : List Str) : List Str := (corpus.map splitNl).flatten

/-- The candidate tasks of a list of lines in order, with identities
resolved exactly as in the source (the counter is post-incremented for every
recognized line without an explicit id, whether or not the task is later
dropped) but without deduplication. -/
def rawLines : List Str → Nat → List Task
  | [], _ => []
  | line :: ls, uid =>
    match parseLine line with
    | none => rawLines ls uid
    | some r =>
      match r.expId with
      | some w =>
        { id := w, name := r.name, dependencies := r.deps, completed := r.completed }
          :: rawLines ls uid
      | none =>
        { id := taskStr uid, name := r.name, dependencies := r.deps, completed := r.completed }
          :: rawLines ls (uid + 1)

/-- All candidate tasks of the corpus in document-then-line order, before
deduplication. -/
def rawTasks (corpus : List Str) : List Task := rawLines (corpusLines corpus) 1

/-- Follows the spec's words for the deduplication step: "skip if identity
already seen, else record and append to the output sequence" — keep, of the
candidate sequence, the first task bearing each id. -/
def keepFirstById : List Task → List Str → List Task
  | [], _ => []
  | t :: ts, seen =>
    if t.id ∈ seen then keepFirstById ts seen
    else t :: keepFirstById ts (t.id :: seen)

/-- The number of recognized task lines (whether or not they carry an
explicit id and whether or not they survive deduplication). -/
def countRecognized (corpus : List Str) : Nat :=
  (corpusLines corpus).countP (fun l => (parseLine l).isSome)

/-- The line carries no explicit identity tag: if recognized at all, its
parsed record has no explicit id. -/
def noExplicitId (line : Str) : Prop :=
  ∀ r, parseLine line = some r → r.expId = none

instance (line : Str) : Decidable (noExplicitId line) :=
  match h : parseLine line with
  | none => isTrue (fun r hr => by rw [h] at hr; cases hr)
  | some r =>
    match h2 : r.expId with
    | none => isTrue (fun r' hr' => by rw [h] at hr'; cases hr'; exact h2)
    | some _ => isFalse (fun hall => by have := hall r h; rw [h2] at this; cases this)

/-- Follows the spec's words for comparison in C7: the line "is a checklist
item of the form `- [ ] ...` or `- [x] ...`" — it begins with one of the two
checklist markers. -/
def isChecklistForm (line : Str) : Prop := marker0s <+: line ∨ markerXs <+: line

instance (line : Str) : Decidable (isChecklistForm line) :=
  inferInstanceAs (Decidable (_ ∨ _))

/-- What the parser actually requires: the line contains, anywhere, a
checklist marker followed by at least one character matchable by the regex
dot. -/
def containsTaskPattern (line : Str) : Prop :=
  ∃ pre c rest,
    (line = pre ++ marker0s ++ c :: rest ∨ line = pre ++ markerXs ++ c :: rest) ∧
    isDotChar c = true

/-- The pattern `pat` occurs in `l` starting at index `p`. -/
def occursAt (pat l : Str) (p : Nat) : Prop := pat <+: l.drop p

instance (pat l : Str) (p : Nat) : Decidable (occursAt pat l p) :=
  inferInstanceAs (Decidable (_ <+: _))

/-- Flip the completed flag of the task bearing `taskId`, leave the other
tasks alone. -/
def flipTask (taskId : Str) (t : Task) : Task :=
  if t.id = taskId then { t with completed := !t.completed } else t

/-- Join a list of lines with single newline separators (no trailing
newline); proof-side normal form for document contents. -/
def interNl : List Str → Str
  | [] => []
  | [l] => l
  | l :: ls => l ++ '\n' :: interNl ls

/-- C5: for the input line `- [ ] Buy milk [id:t1] [dependsOn:t0]` the
parser produces id `t1`, label exactly `Buy milk` (all bracketed tags
removed, then trimmed), dependencies exactly `["t0"]` and completed `false`;
extraction of a corpus holding just that line yields exactly that task. -/
theorem C5_label_stripping :
    parseLine "- [ ] Buy milk [id:t1] [dependsOn:t0]".data =
      some { expId := some "t1".data, name := "Buy milk".data
           , deps := ["t0".data], completed := false } ∧
    getTasksFromNotes ["- [ ] Buy milk [id:t1] [dependsOn:t0]".data] =
      [{ id := "t1".data, name := "Buy milk".data
       , dependencies := ["t0".data], completed := false }] := by
  decide

/-- C2, counterexample: the line `- [ ] a - [x] b` has literal checklist
marker `- [ ]` (it starts with `- [ ] ` and not with `- [x]`), yet the
parser extracts `completed = true`, because the source tests
`line.includes('- [x]')` over the whole line. -/
theorem C2_counterexample :
    marker0s <+: ("- [ ] a - [x] b".data : Str) ∧
    ¬ markerX <+: ("- [ ] a - [x] b".data : Str) ∧
    (parseLine "- [ ] a - [x] b".data).map RawTask.completed = some true := by
  decide

/-- C2, amended: for every line recognized as a task, the extracted
completed flag is true if and only if the line contains the substring
`- [x]` anywhere (not: iff its checklist marker is `- [x]`). -/
theorem C2_amended (line : Str) (r : RawTask) (h : parseLine line = some r) :
    r.completed = true ↔ markerX <:+: line := by
  unfold parseLine at h
  cases htm : taskMatch line with
  | none => rw [htm] at h; cases h
  | some cap =>
    rw [htm] at h
    simp only [Option.some.injEq] at h
    subst h
    simp

/-- Witness for C2_amended at the concrete line `- [ ] a - [x] b`. -/
theorem C2_amended_witness :
    (({ expId := none, name := "a -  b".data, deps := []
      , completed := true } : RawTask).completed = true)
      ↔ markerX <:+: "- [ ] a - [x] b".data :=
  C2_amended "- [ ] a - [x] b".data _ (by decide)

/-- C9: if some extracted task lists `ghost` among its dependencies while no
extracted task has id `ghost`, the projected edge set contains an edge whose
`from` endpoint is absent from the node set; extraction and projection are
total, so no error can arise. -/
theorem C9_dangling_edges (corpus : List Str) (ghost : Str)
    (h1 : ∃ t ∈ getTasksFromNotes corpus, ghost ∈ t.dependencies)
    (h2 : ∀ t ∈ getTasksFromNotes corpus, t.id ≠ ghost) :
    ∃ e ∈ edgesOf (getTasksFromNotes corpus),
      e.efrom = ghost ∧
      e.efrom ∉ (nodesOf (getTasksFromNotes corpus)).map GNode.id := by
  obtain ⟨t, ht, hdep⟩ := h1
  refine ⟨⟨ghost, t.id⟩, ?_, rfl, ?_⟩
  · unfold edgesOf
    simp only [List.mem_flatten, List.mem_map]
    exact ⟨_, ⟨t, ht, rfl⟩, List.mem_map.mpr ⟨ghost, hdep, rfl⟩⟩
  · unfold nodesOf
    simp only [List.map_map, List.mem_map, Function.comp]
    rintro ⟨t', ht', hid⟩
    exact h2 t' ht' hid

/-- Witness for C9_dangling_edges on a one-line corpus with a dangling
`[dependsOn:ghost]` reference. -/
theorem C9_dangling_edges_witness :
    ∃ e ∈ edgesOf (getTasksFromNotes ["- [ ] a [id:t1] [dependsOn:ghost]".data]),
      e.efrom = "ghost".data ∧
      e.efrom ∉
        (nodesOf (getTasksFromNotes ["- [ ] a [id:t1] [dependsOn:ghost]".data])).map GNode.id :=
  C9_dangling_edges _ _ (by decide) (by decide)

/-- C7, counterexample: the line `xx- [ ] y` is not a checklist item of the
form `- [ ] ...` or `- [x] ...` (it does not begin with either marker), yet
the parser recognizes it as a task, because the source regex is not anchored
to the start of the line. -/
theorem C7_counterexample :
    (parseLine "xx- [ ] y".data).isSome = true ∧
    ¬ isChecklistForm "xx- [ ] y".data := by
  decide

/-- A line is recognized exactly when the task regex matches. -/
theorem parseLine_isSome_eq (line : Str) :
    (parseLine line).isSome = (taskMatch line).isSome := by
  unfold parseLine
  cases taskMatch line <;> rfl

/-- C7, amended: the parser recognizes a line as a task if and only if the
line contains — anywhere, not necessarily at its start — a checklist marker
`- [ ] ` or `- [x] ` followed by at least one dot-matchable character; any
other line is signalled as "not a task" (`none`), with no error. -/
theorem C7_amended (line : Str) :
    (parseLine line).isSome = true ↔ containsTaskPattern line := by
  rw [parseLine_isSome_eq]
  induction line with
  | nil =>
    constructor
    · intro h; cases h
    · rintro ⟨pre, c, rest, h | h, -⟩ <;> simp at h
  | cons a cs ih =>
    show (if (marker0s <+: (a :: cs) ∨ markerXs <+: (a :: cs)) ∧
            ((a :: cs).drop 6).takeWhile isDotChar ≠ [] then
          some (((a :: cs).drop 6).takeWhile isDotChar) else taskMatch cs).isSome = true
        ↔ containsTaskPattern (a :: cs)
    by_cases hc : (marker0s <+: (a :: cs) ∨ markerXs <+: (a :: cs)) ∧
        ((a :: cs).drop 6).takeWhile isDotChar ≠ []
    · rw [if_pos hc]
      simp only [Option.isSome_some, true_iff]
      obtain ⟨hm, hcap⟩ := hc
      have hsplit : ∃ m t, (m = marker0s ∨ m = markerXs) ∧ a :: cs = m ++ t := by
        rcases hm with hm | hm
        · obtain ⟨t, ht⟩ := hm; exact ⟨marker0s, t, Or.inl rfl, ht.symm⟩
        · obtain ⟨t, ht⟩ := hm; exact ⟨markerXs, t, Or.inr rfl, ht.symm⟩
      obtain ⟨m, t, hmor, hE⟩ := hsplit
      have hlen : m.length = 6 := by rcases hmor with rfl | rfl <;> rfl
      have hdrop : (a :: cs).drop 6 = t := by
        rw [hE, ← hlen, List.drop_left]
      rw [hdrop] at hcap
      cases t with
      | nil => simp [List.takeWhile] at hcap
      | cons c rest =>
        have hdot : isDotChar c = true := by
          by_contra hnd
          simp only [Bool.not_eq_true] at hnd
          simp [List.takeWhile, hnd] at hcap
        refine ⟨[], c, rest, ?_, hdot⟩
        rcases hmor with rfl | rfl
        · exact Or.inl (by simpa using hE)
        · exact Or.inr (by simpa using hE)
    · rw [if_neg hc, ih]
      constructor
      · rintro ⟨pre, c, rest, h, hdot⟩
        exact ⟨a :: pre, c, rest, by rcases h with h | h <;> [left; right] <;>
          simp [h], hdot⟩
      · rintro ⟨pre, c, rest, h, hdot⟩
        cases pre with
        | cons p pre' =>
          refine ⟨pre', c, rest, ?_, hdot⟩
          rcases h with h | h <;> [left; right] <;>
            · injection h with h1 h2
        | nil =>
          exfalso
          apply hc
          constructor
          · rcases h with h | h
            · exact Or.inl ⟨c :: rest, by rw [h]; rfl⟩
            · exact Or.inr ⟨c :: rest, by rw [h]; rfl⟩
          · have hdrop : (a :: cs).drop 6 = c :: rest := by
              rcases h with h | h <;> rw [h] <;> rfl
            rw [hdrop]
            simp [List.takeWhile, hdot]

/-- The nested document/line loops of `getTasksFromNotes` visit exactly the
flattened line sequence of the corpus. -/
theorem buildState_eq (corpus : List Str) :
    buildState corpus = (corpusLines corpus).foldl step ⟨1, [], []⟩ := by
  unfold buildState corpusLines
  rw [List.foldl_flatten, List.foldl_map]

/-- Unfolding equation for `keepFirstById`. -/
theorem keepFirstById_cons (t : Task) (ts : List Task) (seen : List Str) :
    keepFirstById (t :: ts) seen =
      if t.id ∈ seen then keepFirstById ts seen
      else t :: keepFirstById ts (t.id :: seen) := rfl

/-- The builder's fold, started anywhere, appends to its accumulator the
first-occurrence filtering of the raw candidate sequence. -/
theorem foldl_step_acc (ls : List Str) (uid : Nat) (seen : List Str) (acc : List Task) :
    (ls.foldl step ⟨uid, seen, acc⟩).acc = acc ++ keepFirstById (rawLines ls uid) seen := by
  induction ls generalizing uid seen acc with
  | nil => simp [rawLines, keepFirstById]
  | cons l ls ih =>
    show ((ls.foldl step (step ⟨uid, seen, acc⟩ l))).acc = _
    cases hp : parseLine l with
    | none =>
      rw [show step ⟨uid, seen, acc⟩ l = ⟨uid, seen, acc⟩ by simp [step, hp]]
      rw [ih, show rawLines (l :: ls) uid = rawLines ls uid by simp [rawLines, hp]]
    | some r =>
      cases he : r.expId with
      | some w =>
        have hraw : rawLines (l :: ls) uid =
            { id := w, name := r.name, dependencies := r.deps, completed := r.completed }
              :: rawLines ls uid := by
          simp [rawLines, hp, he]
        have hstep : step ⟨uid, seen, acc⟩ l =
            if w ∈ seen then ⟨uid, seen, acc⟩
            else ⟨uid, w :: seen
                 , acc ++ [{ id := w, name := r.name, dependencies := r.deps
                           , completed := r.completed }]⟩ := by
          simp only [step, hp, he]
        by_cases hw : w ∈ seen
        · rw [hstep, if_pos hw, ih, hraw, keepFirstById_cons, if_pos hw]
        · rw [hstep, if_neg hw, ih, hraw, keepFirstById_cons, if_neg hw, List.append_assoc]
          rfl
      | none =>
        have hraw : rawLines (l :: ls) uid =
            { id := taskStr uid, name := r.name, dependencies := r.deps
            , completed := r.completed } :: rawLines ls (uid + 1) := by
          simp [rawLines, hp, he]
        have hstep : step ⟨uid, seen, acc⟩ l =
            if taskStr uid ∈ seen then ⟨uid + 1, seen, acc⟩
            else ⟨uid + 1, taskStr uid :: seen
                 , acc ++ [{ id := taskStr uid, name := r.name, dependencies := r.deps
                           , completed := r.completed }]⟩ := by
          simp only [step, hp, he]
        by_cases hw : taskStr uid ∈ seen
        · rw [hstep, if_pos hw, ih, hraw, keepFirstById_cons, if_pos hw]
        · rw [hstep, if_neg hw, ih, hraw, keepFirstById_cons, if_neg hw, List.append_assoc]
          rfl

/-- First-occurrence filtering yields pairwise distinct ids, none of them
previously seen. -/
theorem keepFirstById_id_nodup (ts : List Task) (seen : List Str) :
    ((keepFirstById ts seen).map Task.id).Nodup ∧
      ∀ x ∈ (keepFirstById ts seen).map Task.id, x ∉ seen := by
  induction ts generalizing seen with
  | nil => simp [keepFirstById]
  | cons t ts ih =>
    unfold keepFirstById
    by_cases hw : t.id ∈ seen
    · rw [if_pos hw]; exact ih seen
    · rw [if_neg hw]
      obtain ⟨hnd, hnot⟩ := ih (t.id :: seen)
      refine ⟨?_, ?_⟩
      · simp only [List.map_cons, List.nodup_cons]
        exact ⟨fun hmem => (hnot _ hmem) (List.mem_cons_self _ _), hnd⟩
      · simp only [List.map_cons, List.mem_cons]
        rintro x (rfl | hx)
        · exact hw
        · exact fun hxs => (hnot x hx) (List.mem_cons_of_mem _ hxs)

/-- C1: the extracted collection has pairwise distinct task ids, and equals
the first-occurrence filtering (in document-then-line order) of the raw
candidate sequence: the first line yielding a given id produces the task and
every later candidate with that id is dropped. -/
theorem C1_identity_uniqueness (corpus : List Str) :
    ((getTasksFromNotes corpus).map Task.id).Nodup ∧
      getTasksFromNotes corpus = keepFirstById (rawTasks corpus) [] := by
  have hacc : getTasksFromNotes corpus = keepFirstById (rawTasks corpus) [] := by
    unfold getTasksFromNotes rawTasks
    rw [buildState_eq, foldl_step_acc]
    rfl
  exact ⟨hacc ▸ (keepFirstById_id_nodup (rawTasks corpus) []).1, hacc⟩

/-- The decimal digit characters read back as their values. -/
theorem digitChar_toNat (m : Nat) (h : m < 10) : (Nat.digitChar m).toNat = 48 + m := by
  interval_cases m <;> rfl

/-- `decVal` is a left inverse of the fuelled decimal printer. -/
theorem decVal_natDecAux (fuel : Nat) : ∀ n, n ≤ fuel → decVal (natDecAux fuel n) = n := by
  induction fuel with
  | zero =>
    intro n hn
    interval_cases n
    rfl
  | succ fuel ih =>
    intro n hn
    by_cases h0 : n = 0
    · subst h0; rfl
    · show decVal (if n = 0 then [] else natDecAux fuel (n / 10) ++ [Nat.digitChar (n % 10)]) = n
      rw [if_neg h0]
      unfold decVal
      rw [List.foldl_append]
      have hdiv : n / 10 ≤ fuel := by
        have := Nat.div_lt_self (Nat.pos_of_ne_zero h0) (by omega : 1 < 10)
        omega
      have hrec := ih (n / 10) hdiv
      unfold decVal at hrec
      rw [hrec]
      show 10 * (n / 10) + ((Nat.digitChar (n % 10)).toNat - 48) = n
      rw [digitChar_toNat (n % 10) (Nat.mod_lt n (by omega))]
      omega

/-- `decVal` is a left inverse of `natDec`. -/
theorem decVal_natDec (n : Nat) : decVal (natDec n) = n := by
  unfold natDec
  by_cases h0 : n = 0
  · subst h0; rfl
  · rw [if_neg h0]; exact decVal_natDecAux n n le_rfl

/-- Distinct counter values synthesize distinct identities. -/
theorem taskStr_inj {a b : Nat} (h : taskStr a = taskStr b) : a = b := by
  unfold taskStr at h
  have h2 := List.append_cancel_left h
  have h3 := congrArg decVal h2
  rwa [decVal_natDec, decVal_natDec] at h3

/-- On a corpus with no explicit id tags, the builder assigns the
consecutive synthesized identities starting at the current counter value. -/
theorem foldl_step_synth (ls : List Str) :
    ∀ (uid : Nat) (seen : List Str) (acc : List Task),
      (∀ l ∈ ls, noExplicitId l) →
      (∀ m, uid ≤ m → taskStr m ∉ seen) →
      ((ls.foldl step ⟨uid, seen, acc⟩).acc).map Task.id =
        acc.map Task.id ++
          (List.range (ls.countP (fun l => (parseLine l).isSome))).map
            (fun i => taskStr (uid + i)) := by
  induction ls with
  | nil => intro uid seen acc _ _; simp
  | cons l ls ih =>
    intro uid seen acc h hseen
    show ((ls.foldl step (step ⟨uid, seen, acc⟩ l))).acc.map Task.id = _
    cases hp : parseLine l with
    | none =>
      rw [show step ⟨uid, seen, acc⟩ l = ⟨uid, seen, acc⟩ by simp [step, hp]]
      rw [ih uid seen acc (fun l' hl' => h l' (List.mem_cons_of_mem _ hl')) hseen]
      have hcnt : (l :: ls).countP (fun l => (parseLine l).isSome) =
          ls.countP (fun l => (parseLine l).isSome) := by
        rw [List.countP_cons]
        simp [hp]
      rw [hcnt]
    | some r =>
      have he : r.expId = none := h l (List.mem_cons_self _ _) r hp
      have hnot : taskStr uid ∉ seen := hseen uid le_rfl
      have hstep : step ⟨uid, seen, acc⟩ l =
          ⟨uid + 1, taskStr uid :: seen
          , acc ++ [{ id := taskStr uid, name := r.name, dependencies := r.deps
                    , completed := r.completed }]⟩ := by
        simp only [step, hp, he, if_neg hnot]
      rw [hstep]
      have hseen' : ∀ m, uid + 1 ≤ m → taskStr m ∉ taskStr uid :: seen := by
        intro m hm
        simp only [List.mem_cons, not_or]
        refine ⟨fun hEq => ?_, fun hs => hseen m (by omega) hs⟩
        have := taskStr_inj hEq
        omega
      rw [ih (uid + 1) _ _ (fun l' hl' => h l' (List.mem_cons_of_mem _ hl')) hseen']
      have hcnt : (l :: ls).countP (fun l => (parseLine l).isSome) =
          ls.countP (fun l => (parseLine l).isSome) + 1 := by
        rw [List.countP_cons]
        simp [hp]
      rw [hcnt, List.map_append, List.range_succ_eq_map]
      simp only [List.map_cons, List.map_map, Nat.add_zero, List.map_nil, List.nil_append,
        List.append_assoc, List.singleton_append]
      have hmaps : ∀ n : Nat,
          List.map (fun i => taskStr (uid + 1 + i)) (List.range n) =
            List.map ((fun i => taskStr (uid + i)) ∘ Nat.succ) (List.range n) :=
        fun n => List.map_congr_left (fun i _ => by
          show taskStr (uid + 1 + i) = taskStr (uid + Nat.succ i)
          congr 1
          omega)
      rw [hmaps]

/-- C6: on a corpus with zero explicit id tags the extracted identities are
exactly `task1, task2, …` in document-then-line order, one per recognized
line, from a counter that starts at 1 and is post-incremented per
synthesized id within the build. -/
theorem C6_fallback_determinism (corpus : List Str)
    (h : ∀ l ∈ corpusLines corpus, noExplicitId l) :
    (getTasksFromNotes corpus).map Task.id =
      (List.range (countRecognized corpus)).map (fun i => taskStr (i + 1)) := by
  unfold getTasksFromNotes countRecognized
  rw [buildState_eq]
  rw [foldl_step_synth (corpusLines corpus) 1 [] [] h (fun m _ hm => by cases hm)]
  simp only [List.map_nil, List.nil_append]
  apply List.map_congr_left
  intro i _
  show taskStr (1 + i) = taskStr (i + 1)
  congr 1
  omega

/-- Witness for C6_fallback_determinism on a two-document corpus with three
tasks and no explicit ids. -/
theorem C6_fallback_determinism_witness :
    (getTasksFromNotes ["- [ ] a\n- [ ] b".data, "- [ ] c".data]).map Task.id =
      (List.range (countRecognized ["- [ ] a\n- [ ] b".data, "- [ ] c".data])).map
        (fun i => taskStr (i + 1)) :=
  C6_fallback_determinism _ (by decide)

/-- `splitNl` never returns the empty list. -/
theorem splitNl_ne_nil (d : Str) : splitNl d ≠ [] := by
  induction d with
  | nil => simp [splitNl]
  | cons c cs ih =>
    unfold splitNl
    by_cases hc : c = '\n'
    · simp [hc]
    · rw [if_neg hc]
      cases h : splitNl cs <;> simp

/-- Lines produced by `splitNl` contain no newline. -/
theorem splitNl_no_nl (d : Str) : ∀ l ∈ splitNl d, '\n' ∉ l := by
  induction d with
  | nil => intro l hl; simp [splitNl] at hl; simp [hl]
  | cons c cs ih =>
    intro l hl
    unfold splitNl at hl
    by_cases hc : c = '\n'
    · rw [if_pos hc] at hl
      rcases List.mem_cons.mp hl with rfl | hl
      · simp
      · exact ih l hl
    · rw [if_neg hc] at hl
      cases h : splitNl cs with
      | nil => exact absurd h (splitNl_ne_nil cs)
      | cons l0 ls =>
        rw [h] at hl
        rcases List.mem_cons.mp hl with rfl | hl
        · intro hmem
          rcases List.mem_cons.mp hmem with hmem | hmem
          · exact hc hmem.symm
          · exact ih l0 (h ▸ List.mem_cons_self l0 ls) hmem
        · exact ih l (h ▸ List.mem_cons_of_mem l0 hl)

/-- Rejoining the lines of `splitNl` with newlines recovers the document. -/
theorem interNl_splitNl (d : Str) : interNl (splitNl d) = d := by
  induction d with
  | nil => rfl
  | cons c cs ih =>
    unfold splitNl
    by_cases hc : c = '\n'
    · rw [if_pos hc]
      obtain ⟨l0, ls, hL⟩ := List.exists_cons_of_ne_nil (splitNl_ne_nil cs)
      rw [hL]
      show [] ++ '\n' :: interNl (l0 :: ls) = c :: cs
      rw [hL] at ih
      simp [hc, ih]
    · rw [if_neg hc]
      cases h : splitNl cs with
      | nil => exact absurd h (splitNl_ne_nil cs)
      | cons l0 ls =>
        rw [h] at ih
        cases ls with
        | nil =>
          show c :: l0 = c :: cs
          rw [show l0 = cs from ih]
        | cons l1 ls1 =>
          show (c :: l0) ++ '\n' :: interNl (l1 :: ls1) = c :: cs
          simp only [List.cons_append, List.cons.injEq, true_and]
          exact ih

/-- On a nonempty list of lines, `joinLines` is `interNl` plus a trailing
newline. -/
theorem joinLines_eq_interNl (L : List Str) (h : L ≠ []) :
    joinLines L = interNl L ++ ['\n'] := by
  induction L with
  | nil => exact absurd rfl h
  | cons l ls ih =>
    cases ls with
    | nil => simp [joinLines, interNl]
    | cons l1 ls1 =>
      show (l ++ ['\n']) ++ joinLines (l1 :: ls1) = (l ++ '\n' :: interNl (l1 :: ls1)) ++ ['\n']
      rw [ih (by simp)]
      simp

/-- A newline-free string splits to itself. -/
theorem splitNl_of_no_nl (l : Str) (h : '\n' ∉ l) : splitNl l = [l] := by
  induction l with
  | nil => rfl
  | cons c cs ih =>
    unfold splitNl
    rw [if_neg (by intro hc; exact h (by simp [hc]))]
    rw [ih (by intro hm; exact h (List.mem_cons_of_mem _ hm))]

/-- Unfolding equation for `splitNl` at a non-newline head. -/
theorem splitNl_cons_ne (c : Char) (cs : Str) (hc : c ≠ '\n') :
    splitNl (c :: cs) =
      match splitNl cs with
      | [] => [[c]]
      | l :: ls => (c :: l) :: ls := by
  conv_lhs => unfold splitNl
  rw [if_neg hc]

/-- Splitting distributes over a newline separator after a newline-free
prefix. -/
theorem splitNl_append_nl (l r : Str) (h : '\n' ∉ l) :
    splitNl (l ++ '\n' :: r) = l :: splitNl r := by
  induction l with
  | nil => simp [splitNl]
  | cons c cs ih =>
    have hc : c ≠ '\n' := fun hc => h (by simp [hc])
    show splitNl (c :: (cs ++ '\n' :: r)) = (c :: cs) :: splitNl r
    rw [splitNl_cons_ne c _ hc, ih (fun hm => h (List.mem_cons_of_mem _ hm))]

/-- Splitting inverts joining on newline-free lines. -/
theorem splitNl_interNl (L : List Str) (hne : L ≠ []) (h : ∀ l ∈ L, '\n' ∉ l) :
    splitNl (interNl L) = L := by
  induction L with
  | nil => exact absurd rfl hne
  | cons l ls ih =>
    cases ls with
    | nil => exact splitNl_of_no_nl l (h l (List.mem_cons_self _ _))
    | cons l1 ls1 =>
      show splitNl (l ++ '\n' :: interNl (l1 :: ls1)) = l :: (l1 :: ls1)
      rw [splitNl_append_nl l _ (h l (List.mem_cons_self _ _))]
      rw [ih (by simp) (fun x hx => h x (List.mem_cons_of_mem _ hx))]

/-- `dropWhile` is the identity when the head fails the predicate. -/
theorem dropWhile_eq_self_of_head (p : Char → Bool) (l : Str)
    (h : ∀ c, l.head? = some c → p c = false) : l.dropWhile p = l := by
  cases l with
  | nil => rfl
  | cons c cs => simp [List.dropWhile, h c rfl]

/-- If `dropWhile` is the identity, the head fails the predicate. -/
theorem head_of_dropWhile_eq_self (p : Char → Bool) (l : Str)
    (h : l.dropWhile p = l) : ∀ c, l.head? = some c → p c = false := by
  intro c hc
  cases l with
  | nil => cases hc
  | cons a cs =>
    injection hc with hc; subst hc
    by_contra hp
    simp only [Bool.not_eq_false] at hp
    rw [List.dropWhile_cons_of_pos hp] at h
    have := congrArg List.length h
    have hle := (List.dropWhile_suffix (l := cs) p).length_le
    simp at this
    omega

/-- `trimLeft` fixes a string whose first character is not whitespace. -/
theorem trimLeft_eq_self (l : Str) (h : ∀ c, l.head? = some c → isWsChar c = false) :
    trimLeft l = l := dropWhile_eq_self_of_head _ l h

/-- `trimRight` fixes a string whose last character is not whitespace. -/
theorem trimRight_eq_self (l : Str) (h : ∀ c, l.getLast? = some c → isWsChar c = false) :
    trimRight l = l := by
  unfold trimRight
  rw [dropWhile_eq_self_of_head _ _ (fun c hc => h c (by rwa [List.head?_reverse] at hc))]
  exact List.reverse_reverse l

/-- `trim` fixes a string whose two end characters are not whitespace. -/
theorem trim_eq_self (l : Str)
    (h1 : ∀ c, l.head? = some c → isWsChar c = false)
    (h2 : ∀ c, l.getLast? = some c → isWsChar c = false) : trim l = l := by
  unfold trim
  rw [trimLeft_eq_self l h1, trimRight_eq_self l h2]

/-- Dropping a trailing whitespace character commutes out of `trimRight`. -/
theorem trimRight_append_ws (l : Str) (w : Char) (h : isWsChar w = true) :
    trimRight (l ++ [w]) = trimRight l := by
  unfold trimRight
  rw [List.reverse_append]
  show (List.dropWhile isWsChar (w :: l.reverse)).reverse = _
  rw [List.dropWhile_cons_of_pos h]

/-- A trailing newline is removed by `trim`. -/
theorem trim_append_nl (d : Str) : trim (d ++ ['\n']) = trim d := by
  unfold trim trimLeft
  rw [List.dropWhile_append]
  by_cases he : (List.dropWhile isWsChar d).isEmpty = true
  · rw [if_pos he]
    have hd : List.dropWhile isWsChar d = [] := by
      cases h : List.dropWhile isWsChar d
      · rfl
      · rw [h] at he; cases he
    rw [hd]
    rfl
  · rw [if_neg he]
    exact trimRight_append_ws _ _ (by rfl)

/-- A string fixed by `trim` has non-whitespace end characters. -/
theorem trim_fix_ends (l : Str) (h : trim l = l) :
    (∀ c, l.head? = some c → isWsChar c = false) ∧
    (∀ c, l.getLast? = some c → isWsChar c = false) := by
  have hlen1 : (trimLeft l).length ≤ l.length := (List.dropWhile_suffix _).length_le
  have hlen2 : (trimRight (trimLeft l)).length ≤ (trimLeft l).length := by
    unfold trimRight
    have := (List.dropWhile_suffix (l := (trimLeft l).reverse) isWsChar).length_le
    simpa using this
  have hlen : l.length = (trim l).length := by rw [h]
  unfold trim at hlen
  have hL : trimLeft l = l := by
    apply List.IsSuffix.eq_of_length (List.dropWhile_suffix _)
    show (trimLeft l).length = l.length
    omega
  have hR : trimRight l = l := by
    have := h
    unfold trim at this
    rwa [hL] at this
  constructor
  · exact head_of_dropWhile_eq_self _ _ hL
  · intro c hc
    have hrev : (l.reverse).dropWhile isWsChar = l.reverse := by
      have := congrArg List.reverse hR
      unfold trimRight at this
      rwa [List.reverse_reverse] at this
    exact head_of_dropWhile_eq_self _ _ hrev c (by rwa [List.head?_reverse])

/-- The head of a newline join is the head of its nonempty first line. -/
theorem interNl_head (l0 : Str) (rest : List Str) (h0 : l0 ≠ []) :
    (interNl (l0 :: rest)).head? = l0.head? := by
  cases rest with
  | nil => rfl
  | cons l1 ls =>
    show (l0 ++ '\n' :: interNl (l1 :: ls)).head? = l0.head?
    cases l0 with
    | nil => exact absurd rfl h0
    | cons c cs => rfl

/-- The last character of a newline join is the last character of its
nonempty last line. -/
theorem interNl_getLast (L : List Str) (ln : Str) (hL : L.getLast? = some ln)
    (hln : ln ≠ []) :
    interNl L ≠ [] ∧ (interNl L).getLast? = ln.getLast? := by
  induction L with
  | nil => cases hL
  | cons l0 rest ih =>
    cases rest with
    | nil =>
      have h0 : l0 = ln := by simpa using hL
      subst h0
      exact ⟨hln, rfl⟩
    | cons l1 ls =>
      have hL' : (l1 :: ls).getLast? = some ln := by
        rwa [List.getLast?_cons_cons] at hL
      obtain ⟨hne, hlast⟩ := ih hL'
      constructor
      · show l0 ++ '\n' :: interNl (l1 :: ls) ≠ []
        simp
      · show (l0 ++ '\n' :: interNl (l1 :: ls)).getLast? = ln.getLast?
        rw [List.getLast?_append_of_ne_nil _ (by simp : ('\n' :: interNl (l1 :: ls)) ≠ [])]
        show (['\n'] ++ interNl (l1 :: ls)).getLast? = _
        rw [List.getLast?_append_of_ne_nil _ hne]
        exact hlast

/-- If the last line is empty, the newline join is empty or ends in a
newline. -/
theorem interNl_getLast_nil (L : List Str) (h : L.getLast? = some []) :
    interNl L = [] ∨ (interNl L).getLast? = some '\n' := by
  induction L with
  | nil => cases h
  | cons l0 rest ih =>
    cases rest with
    | nil =>
      have h0 : l0 = [] := by simpa using h
      subst h0
      exact Or.inl rfl
    | cons l1 ls =>
      have h' : (l1 :: ls).getLast? = some [] := by
        rwa [List.getLast?_cons_cons] at h
      have hstep : interNl (l0 :: l1 :: ls) = l0 ++ '\n' :: interNl (l1 :: ls) := rfl
      rcases ih h' with hnil | hlast
      · right
        rw [hstep, hnil]
        rw [List.getLast?_append_of_ne_nil _ (by simp : ('\n' :: ([] : Str)) ≠ [])]
        rfl
      · right
        rw [hstep]
        rw [List.getLast?_append_of_ne_nil _ (by simp : ('\n' :: interNl (l1 :: ls)) ≠ [])]
        show (['\n'] ++ interNl (l1 :: ls)).getLast? = some '\n'
        by_cases hn : interNl (l1 :: ls) = []
        · rw [hn]; rfl
        · rw [List.getLast?_append_of_ne_nil _ hn]; exact hlast

/-- Central lemma about both markdown mutators: if every document line is
rewritten by a function `g` that maps the empty line to itself, creates no
newline, preserves the first character and keeps a non-whitespace last
character, then on a trim-fixed document the written content
(`updatedContent.trim()`) is exactly the `g`-image of the lines joined by
single newlines, and splitting the written content recovers the `g`-image of
the original lines. -/
theorem docMut_spec (g : Str → Str) (d : Str)
    (hd : trim d = d)
    (hg_nil : g [] = [])
    (hg_nl : ∀ l, '\n' ∉ l → '\n' ∉ g l)
    (hg_head : ∀ l, (g l).head? = l.head?)
    (hg_last : ∀ l c, l.getLast? = some c → isWsChar c = false →
        ∃ c', (g l).getLast? = some c' ∧ isWsChar c' = false) :
    trim (joinLines ((splitNl d).map g)) = interNl ((splitNl d).map g) ∧
      splitNl (trim (joinLines ((splitNl d).map g))) = (splitNl d).map g := by
  by_cases hdnil : d = []
  · subst hdnil
    constructor
    · show trim (joinLines [g []]) = interNl [g []]
      rw [hg_nil]
      decide
    · show splitNl (trim (joinLines [g []])) = [g []]
      rw [hg_nil]
      decide
  · obtain ⟨hh, hl⟩ := trim_fix_ends d hd
    have hLne : splitNl d ≠ [] := splitNl_ne_nil d
    have hInter : interNl (splitNl d) = d := interNl_splitNl d
    obtain ⟨l0, rest, hL⟩ := List.exists_cons_of_ne_nil hLne
    have hl0ne : l0 ≠ [] := by
      intro h0
      cases rest with
      | nil =>
        apply hdnil
        rw [← hInter, hL, h0]
        rfl
      | cons l1 ls =>
        have hhd : d.head? = some '\n' := by
          rw [← hInter, hL, h0]
          rfl
        have := hh '\n' hhd
        simp [isWsChar] at this
    have hheadd : d.head? = l0.head? := by
      rw [← hInter, hL]
      exact interNl_head l0 rest hl0ne
    obtain ⟨ln, hln⟩ : ∃ ln, (splitNl d).getLast? = some ln := by
      cases hgl : (splitNl d).getLast? with
      | none => exact absurd (List.getLast?_eq_none_iff.mp hgl) hLne
      | some x => exact ⟨x, rfl⟩
    have hlnne : ln ≠ [] := by
      intro h0
      subst h0
      rcases interNl_getLast_nil (splitNl d) hln with hnil | hlast
      · exact hdnil (by rw [← hInter, hnil])
      · rw [hInter] at hlast
        have := hl '\n' hlast
        simp [isWsChar] at this
    obtain ⟨hInterNe, hInterLast⟩ := interNl_getLast (splitNl d) ln hln hlnne
    have hlastd : d.getLast? = ln.getLast? := by
      rw [← hInter]
      exact hInterLast
    have hL'ne : (splitNl d).map g ≠ [] := by simp [hLne]
    have hmap : (splitNl d).map g = g l0 :: rest.map g := by rw [hL]; rfl
    have hg0ne : g l0 ≠ [] := by
      intro h0
      obtain ⟨c, cs, hcc⟩ := List.exists_cons_of_ne_nil hl0ne
      have hhe := hg_head l0
      rw [h0, hcc] at hhe
      cases hhe
    have hgheadok : ∀ c, (g l0).head? = some c → isWsChar c = false := by
      intro c hc
      apply hh
      rw [hheadd, ← hg_head l0]
      exact hc
    have hlastmap : ((splitNl d).map g).getLast? = some (g ln) := by
      rw [List.getLast?_map, hln]
      rfl
    obtain ⟨c1, hc1⟩ : ∃ c, ln.getLast? = some c := by
      cases hgl : ln.getLast? with
      | none => exact absurd (List.getLast?_eq_none_iff.mp hgl) hlnne
      | some x => exact ⟨x, rfl⟩
    have hc1w : isWsChar c1 = false := hl c1 (by rw [hlastd]; exact hc1)
    obtain ⟨c2, hc2, hc2w⟩ := hg_last ln c1 hc1 hc1w
    have hglnne : g ln ≠ [] := by
      intro h0
      rw [h0] at hc2
      cases hc2
    obtain ⟨hINe2, hILast2⟩ := interNl_getLast ((splitNl d).map g) (g ln) hlastmap hglnne
    have hIHead2 : (interNl ((splitNl d).map g)).head? = (g l0).head? := by
      rw [hmap]
      exact interNl_head (g l0) (rest.map g) hg0ne
    have hnl2 : ∀ l ∈ (splitNl d).map g, '\n' ∉ l := by
      intro l hlm
      obtain ⟨l2, hl2, hrfl⟩ := List.mem_map.mp hlm
      rw [← hrfl]
      exact hg_nl l2 (splitNl_no_nl d l2 hl2)
    have htrimfix : trim (interNl ((splitNl d).map g)) = interNl ((splitNl d).map g) := by
      apply trim_eq_self
      · intro c hc
        apply hgheadok
        rw [← hIHead2]
        exact hc
      · intro c hc
        rw [hILast2, hc2] at hc
        injection hc with hc
        rw [← hc]
        exact hc2w
    have hjoin : joinLines ((splitNl d).map g) =
        interNl ((splitNl d).map g) ++ ['\n'] := joinLines_eq_interNl _ hL'ne
    refine ⟨?_, ?_⟩
    · rw [hjoin, trim_append_nl, htrimfix]
    · rw [hjoin, trim_append_nl, htrimfix]
      exact splitNl_interNl _ hL'ne hnl2

/-- `idTagStr` written as an explicit character list. -/
theorem idTagStr_eq (t : Str) :
    idTagStr t = '[' :: 'i' :: 'd' :: ':' :: (t ++ [']']) := rfl

/-- `depTagStr` written as an explicit character list. -/
theorem depTagStr_eq (f : Str) :
    depTagStr f =
      '[' :: 'd' :: 'e' :: 'p' :: 'e' :: 'n' :: 'd' :: 's' :: 'O' :: 'n' :: ':'
        :: (f ++ [']']) := rfl

/-- Length of the id tag. -/
theorem idTagStr_length (t : Str) : (idTagStr t).length = t.length + 5 := by
  rw [idTagStr_eq]
  simp

/-- The head of an append with a nonempty left part. -/
theorem head?_append_of_ne_nil (a b : Str) (h : a ≠ []) : (a ++ b).head? = a.head? := by
  cases a with
  | nil => exact absurd rfl h
  | cons c cs => rfl

/-- Dropping the last element keeps the head on lists of length at least
two. -/
theorem head?_dropLast (l : Str) (h : 2 ≤ l.length) : l.dropLast.head? = l.head? := by
  cases l with
  | nil => simp at h
  | cons c cs =>
    cases cs with
    | nil => simp at h
    | cons c2 cs2 => rfl

/-- `addDepLine` on the empty line. -/
theorem addDepLine_nil (f t : Str) : addDepLine f t [] = [] := by
  unfold addDepLine
  rw [if_neg]
  intro h
  have hlen := h.length_le
  rw [idTagStr_length] at hlen
  simp at hlen

/-- `addDepLine` when the splice fires. -/
theorem addDepLine_acts (f t l : Str) (h1 : idTagStr t <:+: l)
    (h2 : ¬ depTagStr f <:+: l) (h3 : l.getLast? = some ']') :
    addDepLine f t l = l.dropLast ++ (' ' :: depTagStr f) ++ [']'] := by
  unfold addDepLine
  rw [if_pos h1, if_neg h2, if_pos h3]

/-- `addDepLine` is idempotent on every line. -/
theorem addDepLine_idem (f t l : Str) :
    addDepLine f t (addDepLine f t l) = addDepLine f t l := by
  by_cases h1 : idTagStr t <:+: l
  · by_cases h2 : depTagStr f <:+: l
    · have he : addDepLine f t l = l := by
        unfold addDepLine
        rw [if_pos h1, if_pos h2]
      rw [he, he]
    · by_cases h3 : l.getLast? = some ']'
      · rw [addDepLine_acts f t l h1 h2 h3]
        have hdep : depTagStr f <:+: l.dropLast ++ (' ' :: depTagStr f) ++ [']'] :=
          ⟨l.dropLast ++ [' '], [']'], by simp⟩
        by_cases h1' : idTagStr t <:+: l.dropLast ++ (' ' :: depTagStr f) ++ [']']
        · unfold addDepLine
          rw [if_pos h1', if_pos hdep]
        · unfold addDepLine
          rw [if_neg h1']
      · have he : addDepLine f t l = l := by
          unfold addDepLine
          rw [if_pos h1, if_neg h2, if_neg h3]
        rw [he, he]
  · have he : addDepLine f t l = l := by
      unfold addDepLine
      rw [if_neg h1]
    rw [he, he]

/-- `addDepLine` creates no newline when the inserted id is newline-free. -/
theorem addDepLine_no_nl (f t l : Str) (hf : '\n' ∉ f) (hl : '\n' ∉ l) :
    '\n' ∉ addDepLine f t l := by
  by_cases h1 : idTagStr t <:+: l
  · by_cases h2 : depTagStr f <:+: l
    · unfold addDepLine
      rw [if_pos h1, if_pos h2]
      exact hl
    · by_cases h3 : l.getLast? = some ']'
      · rw [addDepLine_acts f t l h1 h2 h3]
        intro hmem
        rcases List.mem_append.mp hmem with hmem | hmem
        · rcases List.mem_append.mp hmem with hmem | hmem
          · exact hl (List.dropLast_sublist l |>.subset hmem)
          · rcases List.mem_cons.mp hmem with hmem | hmem
            · exact absurd hmem (by decide)
            · unfold depTagStr at hmem
              rcases List.mem_append.mp hmem with hmem | hmem
              · rcases List.mem_append.mp hmem with hmem | hmem
                · exact absurd hmem (by decide)
                · exact hf hmem
              · exact absurd hmem (by decide)
        · exact absurd hmem (by decide)
      · unfold addDepLine
        rw [if_pos h1, if_neg h2, if_neg h3]
        exact hl
  · unfold addDepLine
    rw [if_neg h1]
    exact hl

/-- `addDepLine` preserves the first character. -/
theorem addDepLine_head (f t l : Str) : (addDepLine f t l).head? = l.head? := by
  by_cases h1 : idTagStr t <:+: l
  · by_cases h2 : depTagStr f <:+: l
    · unfold addDepLine
      rw [if_pos h1, if_pos h2]
    · by_cases h3 : l.getLast? = some ']'
      · rw [addDepLine_acts f t l h1 h2 h3]
        have hlen : 5 ≤ l.length := by
          have := h1.length_le
          rw [idTagStr_length] at this
          omega
        rw [List.append_assoc, head?_append_of_ne_nil _ _ ?_]
        · exact head?_dropLast l (by omega)
        · intro h0
          have := congrArg List.length h0
          simp [List.length_dropLast] at this
          omega
      · unfold addDepLine
        rw [if_pos h1, if_neg h2, if_neg h3]
  · unfold addDepLine
    rw [if_neg h1]

/-- `addDepLine` keeps a non-whitespace last character. -/
theorem addDepLine_last (f t l : Str) (c : Char) (hc : l.getLast? = some c)
    (hw : isWsChar c = false) :
    ∃ c', (addDepLine f t l).getLast? = some c' ∧ isWsChar c' = false := by
  by_cases h1 : idTagStr t <:+: l
  · by_cases h2 : depTagStr f <:+: l
    · refine ⟨c, ?_, hw⟩
      unfold addDepLine
      rw [if_pos h1, if_pos h2]
      exact hc
    · by_cases h3 : l.getLast? = some ']'
      · refine ⟨']', ?_, rfl⟩
        rw [addDepLine_acts f t l h1 h2 h3]
        rw [List.getLast?_append_of_ne_nil _ (by simp : (([']'] : Str)) ≠ [])]
        rfl
      · refine ⟨c, ?_, hw⟩
        unfold addDepLine
        rw [if_pos h1, if_neg h2, if_neg h3]
        exact hc
  · refine ⟨c, ?_, hw⟩
    unfold addDepLine
    rw [if_neg h1]
    exact hc

/-- On a trim-fixed document, one `updateTaskDependency` pass writes the
joined `addDepLine` image, and a second pass maps `addDepLine` over exactly
the same lines. -/
theorem addDepDoc_idem (f t d : Str) (hd : trim d = d) (hf : '\n' ∉ f) :
    addDepDoc f t (addDepDoc f t d) = addDepDoc f t d := by
  obtain ⟨h1, h2⟩ := docMut_spec (addDepLine f t) d hd (addDepLine_nil f t)
    (fun l hl => addDepLine_no_nl f t l hf hl) (addDepLine_head f t)
    (addDepLine_last f t)
  show trim (joinLines ((splitNl (addDepDoc f t d)).map (addDepLine f t))) = addDepDoc f t d
  unfold addDepDoc
  rw [h2]
  rw [List.map_map]
  have hcong : List.map (addDepLine f t ∘ addDepLine f t) (splitNl d) =
      List.map (addDepLine f t) (splitNl d) :=
    List.map_congr_left (fun l _ => addDepLine_idem f t l)
  rw [hcong]

/-- C4, counterexample: on the one-line document `- [ ] a [id:B]  ` (with
trailing spaces) the first `addDependency(A, B)` call leaves the line alone
(the regex anchored at the final `]` misses) but trims the document; the
second call then splices, so the corpus after two calls differs from the
corpus after one. -/
theorem C4_counterexample :
    updateTaskDependency "A".data "B".data
        (updateTaskDependency "A".data "B".data ["- [ ] a [id:B]  ".data]) ≠
      updateTaskDependency "A".data "B".data ["- [ ] a [id:B]  ".data] := by
  decide

/-- C4, amended: on corpora whose documents are fixed by `trim` (no leading
or trailing whitespace), and for a newline-free `fromId`, calling
addDependency(fromId, toId) twice leaves the corpus identical after the
second call to after the first: a line already containing the dependency tag
is unchanged, and otherwise the tag is spliced at the line's trailing
bracket, so the second pass finds it present (or finds no trailing bracket)
and changes nothing. -/
theorem C4_addDependency_idem (fromId toId : Str) (corpus : List Str)
    (htrim : ∀ d ∈ corpus, trim d = d) (hf : '\n' ∉ fromId) :
    updateTaskDependency fromId toId (updateTaskDependency fromId toId corpus) =
      updateTaskDependency fromId toId corpus := by
  unfold updateTaskDependency
  rw [List.map_map]
  exact List.map_congr_left (fun d hd => addDepDoc_idem fromId toId d (htrim d hd) hf)

/-- Witness for C4_addDependency_idem on a trim-fixed one-document corpus. -/
theorem C4_addDependency_idem_witness :
    updateTaskDependency "A".data "B".data
        (updateTaskDependency "A".data "B".data ["- [ ] a [id:B]".data]) =
      updateTaskDependency "A".data "B".data ["- [ ] a [id:B]".data] :=
  C4_addDependency_idem "A".data "B".data ["- [ ] a [id:B]".data] (by decide) (by decide)

/-- `toggleTaskCompletion` leaves alone every line that does not both
contain the id tag and start with a checklist marker. -/
theorem toggleLine_not_matching (t l : Str)
    (h : ¬ (idTagStr t <:+: l ∧ (marker0 <+: l ∨ markerX <+: l))) :
    toggleLine t l = l := by
  unfold toggleLine
  by_cases h1 : idTagStr t <:+: l
  · rw [if_pos h1]
    have h2 : ¬ (marker0 <+: l ∨ markerX <+: l) := fun hm => h ⟨h1, hm⟩
    rw [if_neg (fun hm => h2 (Or.inl hm)), if_neg (fun hm => h2 (Or.inr hm))]
  · rw [if_neg h1]

/-- A document without any line containing the id tag is still rewritten —
with its own content trimmed. -/
theorem toggleDoc_no_match (t d : Str) (h : ∀ l ∈ splitNl d, ¬ idTagStr t <:+: l) :
    toggleDoc t d = trim d := by
  unfold toggleDoc
  have hmap : (splitNl d).map (toggleLine t) = splitNl d := by
    have hc := List.map_congr_left
      (fun l hl => toggleLine_not_matching t l (fun hcond => h l hl hcond.1) :
        ∀ l ∈ splitNl d, toggleLine t l = id l)
    rwa [show List.map (fun l : Str => l) (splitNl d) = splitNl d from List.map_id _] at hc
  rw [hmap, joinLines_eq_interNl _ (splitNl_ne_nil d), interNl_splitNl, trim_append_nl]

/-- C8, amended: toggleCompletion(taskId) issues exactly one write per
document of the corpus — matched or not; at the line level it rewrites only
lines that both contain `[id:taskId]` and start with a checklist marker; and
a document with no matching line is still written back, as its own content
trimmed (so its bytes change exactly when it had leading or trailing
whitespace). -/
theorem C8_toggle_frame (taskId : Str) (corpus : List Str) :
    (toggleWrites taskId corpus).length = corpus.length ∧
    (∀ l, ¬ (idTagStr taskId <:+: l ∧ (marker0 <+: l ∨ markerX <+: l)) →
      toggleLine taskId l = l) ∧
    (∀ d, (∀ l ∈ splitNl d, ¬ idTagStr taskId <:+: l) → toggleDoc taskId d = trim d) := by
  refine ⟨?_, fun l h => toggleLine_not_matching taskId l h,
    fun d h => toggleDoc_no_match taskId d h⟩
  unfold toggleWrites
  simp

/-- Witness for C8_toggle_frame at a concrete corpus whose only document
contains no id tag. -/
theorem C8_toggle_frame_witness :
    (toggleWrites "t".data ["  x".data]).length = 1 ∧
    toggleLine "t".data "plain".data = "plain".data ∧
    toggleDoc "t".data "  x".data = trim "  x".data :=
  ⟨(C8_toggle_frame "t".data ["  x".data]).1,
   (C8_toggle_frame "t".data ["  x".data]).2.1 "plain".data (by decide),
   (C8_toggle_frame "t".data ["  x".data]).2.2 "  x".data (by decide)⟩

/-- C8, counterexample: the corpus whose single document is `  x` has no
line containing `[id:t]`, yet toggleCompletion(t) writes that document (one
write is issued) and the written content differs from the original (the
leading whitespace is trimmed) — contradicting both "documents with no
matching line are not written" and "every other line is left byte-for-byte
unmodified". -/
theorem C8_counterexample :
    (toggleWrites "t".data ["  x".data]).length = 1 ∧
    (∀ l ∈ splitNl "  x".data, ¬ idTagStr "t".data <:+: l) ∧
    toggleDoc "t".data "  x".data ≠ "  x".data := by
  decide

/-- A pattern is an infix exactly when it occurs at some position. -/
theorem infix_iff_occursAt (pat l : Str) : pat <:+: l ↔ ∃ p, occursAt pat l p := by
  constructor
  · rintro ⟨s, u, rfl⟩
    refine ⟨s.length, ?_⟩
    unfold occursAt
    rw [List.append_assoc, List.drop_left]
    exact List.prefix_append pat u
  · rintro ⟨p, hp⟩
    unfold occursAt at hp
    obtain ⟨u, hu⟩ := hp
    exact ⟨l.take p, u, by rw [List.append_assoc, hu, List.take_append_drop]⟩

/-- A nonempty pattern occurs only at positions inside the string. -/
theorem occursAt_lt_length (pat l : Str) (p : Nat) (hne : pat ≠ [])
    (h : occursAt pat l p) : p < l.length := by
  unfold occursAt at h
  by_contra hge
  rw [List.drop_eq_nil_of_le (by omega)] at h
  obtain ⟨u, hu⟩ := h
  apply hne
  cases pat with
  | nil => rfl
  | cons c cs => cases hu

/-- A prefix of an append that fits in the left part is a prefix of the
left part. -/
theorem prefix_fits (pat a b : Str) (h : pat <+: a ++ b) (hl : pat.length ≤ a.length) :
    pat <+: a := by
  rw [List.prefix_iff_eq_take] at h ⊢
  rwa [List.take_append_of_le_length hl] at h

/-- `takeWhile` passes over a block whose elements all satisfy the
predicate. -/
theorem takeWhile_append_all (p : Char → Bool) (a b : Str) (h : ∀ x ∈ a, p x = true) :
    (a ++ b).takeWhile p = a ++ b.takeWhile p := by
  induction a with
  | nil => rfl
  | cons c cs ih =>
    show List.takeWhile p (c :: (cs ++ b)) = (c :: cs) ++ b.takeWhile p
    rw [List.takeWhile_cons_of_pos (h c (List.mem_cons_self _ _))]
    rw [ih (fun x hx => h x (List.mem_cons_of_mem _ hx))]
    rfl

/-- A successful anchored id-tag match begins with `[id:`. -/
theorem idCapAt_isSome_prefix (l w : Str) (h : idCapAt l = some w) :
    "[id:".data <+: l := by
  by_cases hp : "[id:".data <+: l
  · exact hp
  · unfold idCapAt at h
    rw [if_neg hp] at h
    cases h

/-- An anchored id-tag match survives appending to the right. -/
theorem idCapAt_append_isSome (x v w : Str) (h : idCapAt x = some w) :
    (idCapAt (x ++ v)).isSome = true := by
  have hp := idCapAt_isSome_prefix x w h
  unfold idCapAt at h
  rw [if_pos hp] at h
  by_cases hc : (List.takeWhile isWordChar (x.drop 4)) ≠ [] ∧
      (List.drop (List.takeWhile isWordChar (x.drop 4)).length (x.drop 4)).head? = some ']'
  · obtain ⟨hrun, hbr⟩ := hc
    have hx4 : 4 ≤ x.length := by
      have := hp.length_le
      simpa using this
    have hdrop4 : (x ++ v).drop 4 = x.drop 4 ++ v :=
      List.drop_append_of_le_length hx4
    have hdecomp : x.drop 4 =
        (x.drop 4).takeWhile isWordChar ++ (x.drop 4).drop ((x.drop 4).takeWhile isWordChar).length := by
      conv_lhs => rw [← List.take_append_drop ((x.drop 4).takeWhile isWordChar).length (x.drop 4)]
      rw [← List.prefix_iff_eq_take.mp (List.takeWhile_prefix _)]
    obtain ⟨c, rr, hrr⟩ := List.exists_cons_of_ne_nil
      (show (x.drop 4).drop ((x.drop 4).takeWhile isWordChar).length ≠ [] by
        intro h0
        rw [h0] at hbr
        cases hbr)
    have hcbr : c = ']' := by
      rw [hrr] at hbr
      injection hbr
    have hrw : (x ++ v).drop 4 =
        (x.drop 4).takeWhile isWordChar ++ (']' :: (rr ++ v)) := by
      rw [hdrop4]
      conv_lhs => rw [hdecomp]
      rw [hrr, hcbr]
      simp
    have hallw : ∀ y ∈ (x.drop 4).takeWhile isWordChar, isWordChar y = true :=
      fun y hy => List.mem_takeWhile_imp hy
    have htw : ((x ++ v).drop 4).takeWhile isWordChar = (x.drop 4).takeWhile isWordChar := by
      rw [hrw, takeWhile_append_all _ _ _ hallw]
      rw [List.takeWhile_cons_of_neg (by decide : ¬ isWordChar ']' = true)]
      simp
    have hbr2 : (List.drop (List.takeWhile isWordChar (List.drop 4 x)).length
        (List.drop 4 (x ++ v))).head? = some ']' := by
      rw [hrw, List.drop_left]
      rfl
    unfold idCapAt
    rw [if_pos (hp.trans (List.prefix_append x v))]
    show (if (List.takeWhile isWordChar (List.drop 4 (x ++ v))) ≠ [] ∧
        (List.drop (List.takeWhile isWordChar (List.drop 4 (x ++ v))).length
          (List.drop 4 (x ++ v))).head? = some ']' then
        some (List.takeWhile isWordChar (List.drop 4 (x ++ v))) else none).isSome = true
    rw [htw, if_pos ⟨hrun, hbr2⟩]
    rfl
  · rw [if_neg hc] at h
    cases h

/-- If no position of `l` matches the anchored id tag, `findIdTag` fails. -/
theorem findIdTag_eq_none_of (l : Str) (h : ∀ p, idCapAt (l.drop p) = none) :
    findIdTag l = none := by
  induction l with
  | nil => rfl
  | cons c cs ih =>
    show (match idCapAt (c :: cs) with
          | some w => some w
          | none => findIdTag cs) = none
    rw [show idCapAt (c :: cs) = none from h 0]
    exact ih (fun p => h (p + 1))

/-- `idCapAt` failure at every position transfers to infix substrings. -/
theorem idCapAt_none_infix (z l : Str) (hz : z <:+: l)
    (h : ∀ p, idCapAt (l.drop p) = none) : ∀ p, idCapAt (z.drop p) = none := by
  intro p
  obtain ⟨u, v, huv⟩ := hz
  by_cases hp : p ≤ z.length
  · cases hcap : idCapAt (z.drop p) with
    | none => rfl
    | some w =>
      exfalso
      have hzv : l.drop (u.length + p) = z.drop p ++ v := by
        rw [← huv, List.append_assoc, List.drop_append, List.drop_append_of_le_length hp]
      have := idCapAt_append_isSome (z.drop p) v w hcap
      rw [← hzv, h (u.length + p)] at this
      cases this
  · rw [List.drop_eq_nil_of_le (by omega)]
    rfl

/-- Unfolding equation for `taskMatch`. -/
theorem taskMatch_cons (c : Char) (cs : Str) :
    taskMatch (c :: cs) =
      if (marker0s <+: (c :: cs) ∨ markerXs <+: (c :: cs)) ∧
          ((c :: cs).drop 6).takeWhile isDotChar ≠ [] then
        some (((c :: cs).drop 6).takeWhile isDotChar)
      else taskMatch cs := by
  conv_lhs => unfold taskMatch

/-- The capture of a successful task-regex match is an infix of the line. -/
theorem taskMatch_some_sub (l cap : Str) (h : taskMatch l = some cap) : cap <:+: l := by
  induction l with
  | nil => cases h
  | cons c cs ih =>
    by_cases hc : (marker0s <+: (c :: cs) ∨ markerXs <+: (c :: cs)) ∧
        ((c :: cs).drop 6).takeWhile isDotChar ≠ []
    · rw [taskMatch_cons, if_pos hc] at h
      injection h with h
      rw [← h]
      exact ((List.takeWhile_prefix _).isInfix).trans (List.drop_suffix 6 (c :: cs)).isInfix
    · rw [taskMatch_cons, if_neg hc] at h
      exact (ih h).trans (List.suffix_cons c cs).isInfix

/-- Trimming produces an infix of the original string. -/
theorem trim_sub (l : Str) : trim l <:+: l := by
  have h1 : trimLeft l <:+ l := List.dropWhile_suffix _
  have h2 : trimRight (trimLeft l) <+: trimLeft l := by
    unfold trimRight
    rw [← List.reverse_suffix, List.reverse_reverse]
    exact List.dropWhile_suffix _
  exact (h2.isInfix).trans h1.isInfix

/-- In the spliced suffix ` [dependsOn:<f>]]` (with `[` not in `f`), the
only opening bracket sits at index 1. -/
theorem spliceR_bracket (f : Str) (hf : '[' ∉ f) (q : Nat)
    (h : ((' ' :: depTagStr f) ++ [']'])[q]? = some '[') : q = 1 := by
  have hC : (' ' :: depTagStr f) ++ [']'] =
      [' ', '[', 'd', 'e', 'p', 'e', 'n', 'd', 's', 'O', 'n', ':'] ++ (f ++ [']', ']']) := by
    rw [depTagStr_eq]
    simp
  rw [hC, List.getElem?_append] at h
  by_cases hq : q < ([' ', '[', 'd', 'e', 'p', 'e', 'n', 'd', 's', 'O', 'n', ':'] : Str).length
  · rw [if_pos hq] at h
    have hq12 : q < 12 := by simpa using hq
    interval_cases q <;> first | rfl | exact absurd h (by decide)
  · rw [if_neg hq] at h
    have hmem := List.getElem?_mem h
    rcases List.mem_append.mp hmem with hm | hm
    · exact absurd hm hf
    · exact absurd hm (by decide)

/-- After the splice, `[id:` still occurs only at the original tag
position. -/
theorem mutated_tag4_occurs (pre toId fromId : Str) (hf : '[' ∉ fromId)
    (hOcc : ∀ p < (pre ++ idTagStr toId).length,
        occursAt "[id:".data (pre ++ idTagStr toId) p → p = pre.length)
    (p : Nat)
    (h : occursAt "[id:".data
        ((pre ++ '[' :: 'i' :: 'd' :: ':' :: toId) ++ ((' ' :: depTagStr fromId) ++ [']'])) p) :
    p = pre.length := by
  have hlineA : pre ++ idTagStr toId = (pre ++ '[' :: 'i' :: 'd' :: ':' :: toId) ++ [']'] := by
    rw [idTagStr_eq]
    simp
  have hAlen : (pre ++ '[' :: 'i' :: 'd' :: ':' :: toId).length = pre.length + toId.length + 4 := by
    simp
    omega
  unfold occursAt at h
  by_cases hp1 : p + 4 ≤ (pre ++ '[' :: 'i' :: 'd' :: ':' :: toId).length
  · rw [List.drop_append_of_le_length (by omega)] at h
    have hfits : "[id:".data <+: (pre ++ '[' :: 'i' :: 'd' :: ':' :: toId).drop p := by
      apply prefix_fits _ _ _ h
      rw [show ("[id:".data).length = 4 from rfl, List.length_drop]
      omega
    have hocc2 : occursAt "[id:".data (pre ++ idTagStr toId) p := by
      unfold occursAt
      rw [hlineA, List.drop_append_of_le_length (by omega)]
      exact hfits.trans (List.prefix_append _ _)
    refine hOcc p ?_ hocc2
    rw [hlineA]
    simp
    omega
  · by_cases hp2 : p ≤ (pre ++ '[' :: 'i' :: 'd' :: ':' :: toId).length
    · exfalso
      rw [List.drop_append_of_le_length hp2] at h
      obtain ⟨u, hu⟩ := h
      have hklen : ((pre ++ '[' :: 'i' :: 'd' :: ':' :: toId).drop p).length =
          (pre ++ '[' :: 'i' :: 'd' :: ':' :: toId).length - p := List.length_drop _ _
      have h1 : ("[id:".data ++ u)[(pre ++ '[' :: 'i' :: 'd' :: ':' :: toId).length - p]? =
          ("[id:".data)[(pre ++ '[' :: 'i' :: 'd' :: ':' :: toId).length - p]? :=
        List.getElem?_append_left (by rw [show ("[id:".data).length = 4 from rfl]; omega)
      have h2 : (((pre ++ '[' :: 'i' :: 'd' :: ':' :: toId).drop p) ++
            ((' ' :: depTagStr fromId) ++ [']']))[(pre ++ '[' :: 'i' :: 'd' :: ':' :: toId).length - p]? =
          some ' ' := by
        rw [List.getElem?_append, if_neg (by omega)]
        rw [show (pre ++ '[' :: 'i' :: 'd' :: ':' :: toId).length - p -
            ((pre ++ '[' :: 'i' :: 'd' :: ':' :: toId).drop p).length = 0 by omega]
        rfl
      rw [hu, h2] at h1
      have hk3 : (pre ++ '[' :: 'i' :: 'd' :: ':' :: toId).length - p ≤ 3 := by omega
      set k := (pre ++ '[' :: 'i' :: 'd' :: ':' :: toId).length - p with hk
      interval_cases k <;> exact absurd h1 (by decide)
    · exfalso
      rw [show p = (pre ++ '[' :: 'i' :: 'd' :: ':' :: toId).length +
          (p - (pre ++ '[' :: 'i' :: 'd' :: ':' :: toId).length) by omega,
        List.drop_append] at h
      obtain ⟨u, hu⟩ := h
      have hlen : p - (pre ++ '[' :: 'i' :: 'd' :: ':' :: toId).length <
          ((' ' :: depTagStr fromId) ++ [']']).length := by
        by_contra hge
        rw [List.drop_eq_nil_of_le (by omega)] at hu
        cases hu
      have hch : ((' ' :: depTagStr fromId) ++ [']'])[p -
          (pre ++ '[' :: 'i' :: 'd' :: ':' :: toId).length]? = some '[' := by
        have hg := List.getElem?_drop ((' ' :: depTagStr fromId) ++ [']'])
          (p - (pre ++ '[' :: 'i' :: 'd' :: ':' :: toId).length) 0
        rw [Nat.add_zero] at hg
        rw [← hg, ← hu]
        rfl
      have hq1 := spliceR_bracket fromId hf _ hch
      rw [hq1] at hu
      have hpre : "[id:".data <+: ((' ' :: depTagStr fromId) ++ [']']).drop 1 := ⟨u, hu⟩
      rw [show ((' ' :: depTagStr fromId) ++ [']']).drop 1 = depTagStr fromId ++ [']'] from rfl,
        depTagStr_eq] at hpre
      rw [show "[id:".data = ['[', 'i', 'd', ':'] from rfl] at hpre
      simp only [List.cons_append] at hpre
      rw [List.cons_prefix_cons] at hpre
      obtain ⟨-, hpre⟩ := hpre
      rw [List.cons_prefix_cons] at hpre
      exact absurd hpre.1 (by decide)

/-- `addDepLine` is the identity on lines without the id tag. -/
theorem addDepLine_of_not_infix (f t l : Str) (h : ¬ idTagStr t <:+: l) :
    addDepLine f t l = l := by
  unfold addDepLine
  rw [if_neg h]

/-- Unfolding form of `idCapAt`. -/
theorem idCapAt_eq (l : Str) :
    idCapAt l =
      if "[id:".data <+: l then
        (if (List.takeWhile isWordChar (l.drop 4)) ≠ [] ∧
            (List.drop (List.takeWhile isWordChar (l.drop 4)).length (l.drop 4)).head? =
              some ']' then
          some (List.takeWhile isWordChar (l.drop 4))
        else none)
      else none := rfl

/-- C10, counterexample: on the line `- [ ] x [id:t] [id:t]` — which
contains `[id:t]`, contains no `[dependsOn:f]`, ends in `]`, and whose last
bracketed tag is `[id:t]` — the spliced line still contains the substring
`[id:t]` (the earlier duplicate survives), so the claim's "the mutated line
no longer contains the substring [id:toId]" is false. -/
theorem C10_counterexample :
    (idTagStr "t".data <:+ ("- [ ] x [id:t] [id:t]".data : Str)) ∧
    ¬ depTagStr "f".data <:+: ("- [ ] x [id:t] [id:t]".data : Str) ∧
    ("- [ ] x [id:t] [id:t]".data : Str).getLast? = some ']' ∧
    idTagStr "t".data <:+: addDepLine "f".data "t".data "- [ ] x [id:t] [id:t]".data := by
  decide

/-- C10, amended.  First part (the claim's splice description, unchanged):
on every line containing `[id:toId]`, not containing `[dependsOn:fromId]`
and ending in `]`, addDependency replaces the final `]` by
` [dependsOn:fromId]]`, i.e. inserts the new tag before that final bracket.
Second part (the "in particular", now requiring that the line's only
occurrence of `[id:` is the trailing tag itself): writing the line as
`pre ++ [id:toId]` with `[id:` occurring only at position `pre.length`,
`toId` a word string and `[` not in `fromId`, the mutated line no longer
contains `[id:toId]`, subsequent toggleCompletion(toId) and
addDependency(_, toId) calls leave it unchanged, and re-extraction gives the
line's task no explicit id (a synthesized identity). -/
theorem C10_splice :
    (∀ fromId toId line, idTagStr toId <:+: line → ¬ depTagStr fromId <:+: line →
        line.getLast? = some ']' →
        addDepLine fromId toId line =
          line.dropLast ++ (' ' :: depTagStr fromId) ++ [']']) ∧
    (∀ fromId toId pre,
        (∀ c ∈ toId, isWordChar c = true) →
        '[' ∉ fromId →
        ¬ depTagStr fromId <:+: (pre ++ idTagStr toId) →
        (∀ p < (pre ++ idTagStr toId).length,
            occursAt "[id:".data (pre ++ idTagStr toId) p → p = pre.length) →
        ¬ idTagStr toId <:+: addDepLine fromId toId (pre ++ idTagStr toId) ∧
        toggleLine toId (addDepLine fromId toId (pre ++ idTagStr toId)) =
          addDepLine fromId toId (pre ++ idTagStr toId) ∧
        (∀ f2, addDepLine f2 toId (addDepLine fromId toId (pre ++ idTagStr toId)) =
          addDepLine fromId toId (pre ++ idTagStr toId)) ∧
        (∀ r, parseLine (addDepLine fromId toId (pre ++ idTagStr toId)) = some r →
          r.expId = none)) := by
  refine ⟨fun fromId toId line h1 h2 h3 => addDepLine_acts fromId toId line h1 h2 h3, ?_⟩
  intro fromId toId pre hwt hf hnodep hOcc
  have hlineA : pre ++ idTagStr toId = (pre ++ '[' :: 'i' :: 'd' :: ':' :: toId) ++ [']'] := by
    rw [idTagStr_eq]
    simp
  have h1inf : idTagStr toId <:+: pre ++ idTagStr toId := ⟨pre, [], by simp⟩
  have h3 : (pre ++ idTagStr toId).getLast? = some ']' := by
    rw [hlineA, List.getLast?_concat]
  have hact := addDepLine_acts fromId toId _ h1inf hnodep h3
  have hdl : (pre ++ idTagStr toId).dropLast = pre ++ '[' :: 'i' :: 'd' :: ':' :: toId := by
    rw [hlineA, List.dropLast_concat]
  have hmut : addDepLine fromId toId (pre ++ idTagStr toId) =
      (pre ++ '[' :: 'i' :: 'd' :: ':' :: toId) ++ ((' ' :: depTagStr fromId) ++ [']']) := by
    rw [hact, hdl, List.append_assoc]
  have hOCCm : ∀ p,
      occursAt "[id:".data (addDepLine fromId toId (pre ++ idTagStr toId)) p →
        p = pre.length := by
    intro p hp
    rw [hmut] at hp
    exact mutated_tag4_occurs pre toId fromId hf hOcc p hp
  have hdropPre : (addDepLine fromId toId (pre ++ idTagStr toId)).drop pre.length =
      '[' :: 'i' :: 'd' :: ':' :: (toId ++ ((' ' :: depTagStr fromId) ++ [']'])) := by
    rw [hmut]
    rw [show (pre ++ '[' :: 'i' :: 'd' :: ':' :: toId) ++ ((' ' :: depTagStr fromId) ++ [']']) =
        pre ++ ('[' :: 'i' :: 'd' :: ':' :: (toId ++ ((' ' :: depTagStr fromId) ++ [']'])))
      by simp]
    exact List.drop_left pre _
  have hrun : List.takeWhile isWordChar (toId ++ ((' ' :: depTagStr fromId) ++ [']'])) =
      toId := by
    rw [takeWhile_append_all _ _ _ hwt]
    rw [show ((' ' :: depTagStr fromId) ++ [']']) = ' ' :: (depTagStr fromId ++ [']']) from rfl]
    rw [List.takeWhile_cons_of_neg (by decide : ¬ isWordChar ' ' = true)]
    simp
  have hcapPre : idCapAt
      ((addDepLine fromId toId (pre ++ idTagStr toId)).drop pre.length) = none := by
    rw [hdropPre, idCapAt_eq]
    rw [if_pos ⟨toId ++ ((' ' :: depTagStr fromId) ++ [']']), rfl⟩]
    rw [show List.drop 4
        ('[' :: 'i' :: 'd' :: ':' :: (toId ++ ((' ' :: depTagStr fromId) ++ [']']))) =
        toId ++ ((' ' :: depTagStr fromId) ++ [']']) from rfl]
    rw [hrun]
    rw [if_neg]
    rintro ⟨-, hbr⟩
    rw [List.drop_left] at hbr
    rw [show ((' ' :: depTagStr fromId) ++ [']']).head? = some ' ' from rfl] at hbr
    exact absurd hbr (by decide)
  have hcapAll : ∀ p,
      idCapAt ((addDepLine fromId toId (pre ++ idTagStr toId)).drop p) = none := by
    intro p
    cases hcap : idCapAt ((addDepLine fromId toId (pre ++ idTagStr toId)).drop p) with
    | none => rfl
    | some w =>
      exfalso
      have hocc : occursAt "[id:".data (addDepLine fromId toId (pre ++ idTagStr toId)) p :=
        idCapAt_isSome_prefix _ w hcap
      rw [hOCCm p hocc, hcapPre] at hcap
      cases hcap
  have hnotin : ¬ idTagStr toId <:+: addDepLine fromId toId (pre ++ idTagStr toId) := by
    intro hin
    rw [infix_iff_occursAt] at hin
    obtain ⟨p, hp⟩ := hin
    have hocc4 : occursAt "[id:".data (addDepLine fromId toId (pre ++ idTagStr toId)) p := by
      unfold occursAt at hp ⊢
      exact (show "[id:".data <+: idTagStr toId from
        ⟨toId ++ [']'], by rw [idTagStr_eq]; rfl⟩).trans hp
    have hppre := hOCCm p hocc4
    rw [hppre] at hp
    unfold occursAt at hp
    rw [hdropPre, idTagStr_eq] at hp
    simp only [List.cons_prefix_cons, true_and] at hp
    rw [List.prefix_append_right_inj] at hp
    rw [show ((' ' :: depTagStr fromId) ++ [']']) = ' ' :: (depTagStr fromId ++ [']']) from rfl,
      List.cons_prefix_cons] at hp
    exact absurd hp.1 (by decide)
  refine ⟨hnotin, ?_, ?_, ?_⟩
  · exact toggleLine_not_matching toId _ (fun hc => hnotin hc.1)
  · intro f2
    exact addDepLine_of_not_infix f2 toId _ hnotin
  · intro r hr
    unfold parseLine at hr
    cases htm : taskMatch (addDepLine fromId toId (pre ++ idTagStr toId)) with
    | none => rw [htm] at hr; cases hr
    | some cap =>
      rw [htm] at hr
      simp only [Option.some.injEq] at hr
      subst hr
      show findIdTag (trim cap) = none
      apply findIdTag_eq_none_of
      apply idCapAt_none_infix _ _ ?_ hcapAll
      exact (trim_sub cap).trans (taskMatch_some_sub _ cap htm)

/-- Witness for C10_splice at fromId `f`, toId `t` and prefix `- [ ] x `. -/
theorem C10_splice_witness :
    ¬ idTagStr "t".data <:+:
        addDepLine "f".data "t".data ("- [ ] x ".data ++ idTagStr "t".data) ∧
      toggleLine "t".data
          (addDepLine "f".data "t".data ("- [ ] x ".data ++ idTagStr "t".data)) =
        addDepLine "f".data "t".data ("- [ ] x ".data ++ idTagStr "t".data) :=
  let h := C10_splice.2 "f".data "t".data "- [ ] x ".data
    (by decide) (by decide) (by decide) (by decide)
  ⟨h.1, h.2.1⟩

/-- `marker0` as an explicit character list. -/
theorem marker0_eq : marker0 = ['-', ' ', '[', ' ', ']'] := rfl

/-- `markerX` as an explicit character list. -/
theorem markerX_eq : markerX = ['-', ' ', '[', 'x', ']'] := rfl

/-- `replaceFirst` at a line that starts with the pattern. -/
theorem replaceFirst_of_prefix (pat rep l : Str) (h : pat <+: l) (hne : pat ≠ []) :
    replaceFirst pat rep l = rep ++ l.drop pat.length := by
  cases l with
  | nil => exact absurd (List.prefix_nil.mp h) hne
  | cons c cs =>
    conv_lhs => unfold replaceFirst
    rw [if_pos h]

/-- `toggleTaskCompletion` on a line containing the id tag and starting with
`- [ ]`. -/
theorem toggleLine_acts0 (t l : Str) (hinf : idTagStr t <:+: l) (h0 : marker0 <+: l) :
    toggleLine t l = markerX ++ l.drop 5 := by
  unfold toggleLine
  rw [if_pos hinf, if_pos h0]
  exact replaceFirst_of_prefix marker0 markerX l h0 (by decide)

/-- `toggleTaskCompletion` on a line containing the id tag and starting with
`- [x]`. -/
theorem toggleLine_actsX (t l : Str) (hinf : idTagStr t <:+: l) (hX : markerX <+: l) :
    toggleLine t l = marker0 ++ l.drop 5 := by
  unfold toggleLine
  rw [if_pos hinf]
  have h0 : ¬ marker0 <+: l := by
    intro h0
    have e1 := List.prefix_iff_eq_take.mp h0
    have e2 := List.prefix_iff_eq_take.mp hX
    rw [show marker0.length = 5 from rfl] at e1
    rw [show markerX.length = 5 from rfl] at e2
    exact absurd (e1.trans e2.symm) (by decide)
  rw [if_neg h0, if_pos hX]
  exact replaceFirst_of_prefix markerX marker0 l hX (by decide)

/-- The id tag cannot start inside a checklist marker: an occurrence in a
marker-prefixed line sits at position 5 or later. -/
theorem idTag_occurs_ge5 (s m t0 : Str) (hm : m = marker0 ∨ m = markerX)
    (p : Nat) (h : occursAt (idTagStr s) (m ++ t0) p) : 5 ≤ p := by
  by_contra hlt
  push_neg at hlt
  unfold occursAt at h
  have hm5 : m.length = 5 := by rcases hm with rfl | rfl <;> rfl
  rw [List.drop_append_of_le_length (by omega)] at h
  rw [idTagStr_eq] at h
  rcases hm with rfl | rfl
  · rw [marker0_eq] at h
    interval_cases p <;>
      simp only [List.drop_succ_cons, List.drop_zero, List.cons_append,
        List.nil_append, List.cons_prefix_cons] at h <;>
      first
        | exact absurd h.1 (by decide)
        | exact absurd h.2.1 (by decide)
  · rw [markerX_eq] at h
    interval_cases p <;>
      simp only [List.drop_succ_cons, List.drop_zero, List.cons_append,
        List.nil_append, List.cons_prefix_cons] at h <;>
      first
        | exact absurd h.1 (by decide)
        | exact absurd h.2.1 (by decide)

/-- The id tag survives swapping the five-character checklist marker. -/
theorem idTag_infix_swap (s t0 m m2 : Str) (hm : m = marker0 ∨ m = markerX)
    (hm2 : m2 = marker0 ∨ m2 = markerX) (h : idTagStr s <:+: m ++ t0) :
    idTagStr s <:+: m2 ++ t0 := by
  rw [infix_iff_occursAt] at h ⊢
  obtain ⟨p, hp⟩ := h
  refine ⟨p, ?_⟩
  have h5 := idTag_occurs_ge5 s m t0 hm p hp
  have hm5 : m.length = 5 := by rcases hm with rfl | rfl <;> rfl
  have hm25 : m2.length = 5 := by rcases hm2 with rfl | rfl <;> rfl
  unfold occursAt at hp ⊢
  have e1 := @List.drop_append _ m t0 (p - 5)
  have e2 := @List.drop_append _ m2 t0 (p - 5)
  rw [hm5, show 5 + (p - 5) = p by omega] at e1
  rw [hm25, show 5 + (p - 5) = p by omega] at e2
  rw [e2]
  rw [e1] at hp
  exact hp

/-- Toggling a line twice restores it, for every line. -/
theorem toggleLine_invol (t l : Str) : toggleLine t (toggleLine t l) = l := by
  by_cases hinf : idTagStr t <:+: l
  · by_cases h0 : marker0 <+: l
    · obtain ⟨t0, ht0⟩ := h0
      have h0' : marker0 <+: l := ⟨t0, ht0⟩
      have hd5 : l.drop 5 = t0 := by
        rw [← ht0]
        exact List.drop_left marker0 t0
      rw [toggleLine_acts0 t l hinf h0', hd5]
      have hinf0 : idTagStr t <:+: marker0 ++ t0 := by rw [ht0]; exact hinf
      have hinfX : idTagStr t <:+: markerX ++ t0 :=
        idTag_infix_swap t t0 marker0 markerX (Or.inl rfl) (Or.inr rfl) hinf0
      rw [toggleLine_actsX t _ hinfX (List.prefix_append _ _)]
      rw [show (markerX ++ t0).drop 5 = t0 from List.drop_left markerX t0]
      exact ht0
    · by_cases hX : markerX <+: l
      · obtain ⟨t0, ht0⟩ := hX
        have hX' : markerX <+: l := ⟨t0, ht0⟩
        have hd5 : l.drop 5 = t0 := by
          rw [← ht0]
          exact List.drop_left markerX t0
        rw [toggleLine_actsX t l hinf hX', hd5]
        have hinfX : idTagStr t <:+: markerX ++ t0 := by rw [ht0]; exact hinf
        have hinf0 : idTagStr t <:+: marker0 ++ t0 :=
          idTag_infix_swap t t0 markerX marker0 (Or.inr rfl) (Or.inl rfl) hinfX
        rw [toggleLine_acts0 t _ hinf0 (List.prefix_append _ _)]
        rw [show (marker0 ++ t0).drop 5 = t0 from List.drop_left marker0 t0]
        exact ht0
      · have he : toggleLine t l = l := by
          unfold toggleLine
          rw [if_pos hinf, if_neg h0, if_neg hX]
        rw [he, he]
  · have he : toggleLine t l = l := by
      unfold toggleLine
      rw [if_neg hinf]
    rw [he, he]

/-- A checklist-marker prefix forces a dash first character. -/
theorem cond_false_of_head (c : Char) (cs : Str) (hc : ¬ c = '-') :
    ¬ ((marker0s <+: c :: cs ∨ markerXs <+: c :: cs) ∧
       ((c :: cs).drop 6).takeWhile isDotChar ≠ []) := by
  rintro ⟨hp | hp, -⟩
  · obtain ⟨u, hu⟩ := hp
    have hh : (marker0s ++ u).head? = (c :: cs).head? := by rw [hu]
    rw [show (marker0s ++ u).head? = some '-' from rfl] at hh
    injection hh with hh
    exact hc hh.symm
  · obtain ⟨u, hu⟩ := hp
    have hh : (markerXs ++ u).head? = (c :: cs).head? := by rw [hu]
    rw [show (markerXs ++ u).head? = some '-' from rfl] at hh
    injection hh with hh
    exact hc hh.symm

/-- The task-regex scan on a line headed by `- [ ] `. -/
theorem taskMatch_m0s (rest : Str) :
    taskMatch (marker0s ++ rest) =
      if rest.takeWhile isDotChar = [] then taskMatch (']' :: ' ' :: rest)
      else some (rest.takeWhile isDotChar) := by
  rw [show marker0s ++ rest = '-' :: ' ' :: '[' :: ' ' :: ']' :: ' ' :: rest from rfl]
  by_cases hcap : rest.takeWhile isDotChar = []
  · rw [if_pos hcap]
    rw [taskMatch_cons, if_neg (fun hand => hand.2 hcap)]
    rw [taskMatch_cons, if_neg (cond_false_of_head ' ' _ (by decide))]
    rw [taskMatch_cons, if_neg (cond_false_of_head '[' _ (by decide))]
    rw [taskMatch_cons, if_neg (cond_false_of_head ' ' _ (by decide))]
  · rw [if_neg hcap]
    rw [taskMatch_cons, if_pos ⟨Or.inl ⟨rest, rfl⟩, hcap⟩]
    rfl

/-- The task-regex scan on a line headed by `- [x] `. -/
theorem taskMatch_mXs (rest : Str) :
    taskMatch (markerXs ++ rest) =
      if rest.takeWhile isDotChar = [] then taskMatch (']' :: ' ' :: rest)
      else some (rest.takeWhile isDotChar) := by
  rw [show markerXs ++ rest = '-' :: ' ' :: '[' :: 'x' :: ']' :: ' ' :: rest from rfl]
  by_cases hcap : rest.takeWhile isDotChar = []
  · rw [if_pos hcap]
    rw [taskMatch_cons, if_neg (fun hand => hand.2 hcap)]
    rw [taskMatch_cons, if_neg (cond_false_of_head ' ' _ (by decide))]
    rw [taskMatch_cons, if_neg (cond_false_of_head '[' _ (by decide))]
    rw [taskMatch_cons, if_neg (cond_false_of_head 'x' _ (by decide))]
  · rw [if_neg hcap]
    rw [taskMatch_cons, if_pos ⟨Or.inr ⟨rest, rfl⟩, hcap⟩]
    rfl

/-- The task regex cannot tell the two markers apart: matching is invariant
under flipping the bracket content. -/
theorem taskMatch_flip (rest : Str) :
    taskMatch (marker0s ++ rest) = taskMatch (markerXs ++ rest) := by
  rw [taskMatch_m0s, taskMatch_mXs]

/-- Explicit equation for a successful parse. -/
theorem parseLine_eq_some (line cap : Str) (h : taskMatch line = some cap) :
    parseLine line =
      some { expId := findIdTag (trim cap)
           , name := trim (stripTags (trim cap))
           , deps := findDepTags (trim cap)
           , completed := decide (markerX <:+: line) } := by
  unfold parseLine
  rw [h]

/-- Explicit equation for a failed parse. -/
theorem parseLine_eq_none (line : Str) (h : taskMatch line = none) :
    parseLine line = none := by
  unfold parseLine
  rw [h]

/-- If `- [x]` occurs only at position 0, a line starting `- [ ]` does not
contain it. -/
theorem not_x_infix_occ0_m0 (rest : Str)
    (hOcc : ∀ p < (marker0 ++ rest).length, occursAt markerX (marker0 ++ rest) p → p = 0) :
    ¬ markerX <:+: (marker0 ++ rest) := by
  intro hin
  rw [infix_iff_occursAt] at hin
  obtain ⟨p, hp⟩ := hin
  have hplen : p < (marker0 ++ rest).length :=
    occursAt_lt_length _ _ p (by decide) hp
  have h0 := hOcc p hplen hp
  rw [h0] at hp
  unfold occursAt at hp
  rw [List.drop_zero] at hp
  rw [show marker0 ++ rest = '-' :: ' ' :: '[' :: ' ' :: ']' :: rest from rfl,
    show markerX = '-' :: ' ' :: '[' :: 'x' :: ']' :: ([] : Str) from rfl] at hp
  simp only [List.cons_prefix_cons] at hp
  exact absurd hp.2.2.2.1 (by decide)

/-- If `- [x]` occurs only at position 0 in a line starting `- [x]`, the
flipped line (starting `- [ ]`) does not contain `- [x]` at all. -/
theorem not_x_infix_occ0_mX (rest : Str)
    (hOcc : ∀ p < (markerX ++ rest).length, occursAt markerX (markerX ++ rest) p → p = 0) :
    ¬ markerX <:+: (marker0 ++ rest) := by
  intro hin
  rw [infix_iff_occursAt] at hin
  obtain ⟨p, hp⟩ := hin
  by_cases hp5 : 5 ≤ p
  · have hplen : p < (marker0 ++ rest).length :=
      occursAt_lt_length _ _ p (by decide) hp
    have hocc' : occursAt markerX (markerX ++ rest) p := by
      unfold occursAt at hp ⊢
      have e1 := @List.drop_append _ marker0 rest (p - 5)
      have e2 := @List.drop_append _ markerX rest (p - 5)
      rw [show marker0.length = 5 from rfl, show 5 + (p - 5) = p by omega] at e1
      rw [show markerX.length = 5 from rfl, show 5 + (p - 5) = p by omega] at e2
      rw [e2]
      rw [e1] at hp
      exact hp
    have := hOcc p (by simpa using hplen) hocc'
    omega
  · push_neg at hp5
    unfold occursAt at hp
    rw [show marker0 ++ rest = '-' :: ' ' :: '[' :: ' ' :: ']' :: rest from rfl] at hp
    rw [show markerX = '-' :: ' ' :: '[' :: 'x' :: ']' :: ([] : Str) from rfl] at hp
    interval_cases p <;>
      simp only [List.drop_succ_cons, List.drop_zero, List.cons_prefix_cons] at hp <;>
      first
        | exact absurd hp.1 (by decide)
        | exact absurd hp.2.2.2.1 (by decide)

/-- Toggling a tag-bearing, marker-headed line flips exactly the completed
flag of its parse. -/
theorem toggleLine_parse_flip (taskId l : Str)
    (hinf : idTagStr taskId <:+: l)
    (hmark : marker0s <+: l ∨ markerXs <+: l)
    (hOcc : ∀ p < l.length, occursAt markerX l p → p = 0) :
    parseLine (toggleLine taskId l) =
      (parseLine l).map (fun r => { r with completed := !r.completed }) := by
  rcases hmark with hm | hm
  · obtain ⟨rest, hrest⟩ := hm
    subst hrest
    have h0 : marker0 <+: marker0s ++ rest := ⟨' ' :: rest, rfl⟩
    rw [toggleLine_acts0 taskId _ hinf h0]
    rw [show (marker0s ++ rest).drop 5 = ' ' :: rest from rfl]
    rw [show markerX ++ ' ' :: rest = markerXs ++ rest from rfl]
    cases htm : taskMatch (marker0s ++ rest) with
    | none =>
      have htm2 : taskMatch (markerXs ++ rest) = none := by
        rw [← taskMatch_flip rest]
        exact htm
      rw [parseLine_eq_none _ htm, parseLine_eq_none _ htm2]
      rfl
    | some cap =>
      have htm2 : taskMatch (markerXs ++ rest) = some cap := by
        rw [← taskMatch_flip rest]
        exact htm
      rw [parseLine_eq_some _ _ htm, parseLine_eq_some _ _ htm2]
      have hX : decide (markerX <:+: markerXs ++ rest) = true :=
        decide_eq_true ((List.prefix_append markerX (' ' :: rest)).isInfix)
      have hY : decide (markerX <:+: marker0s ++ rest) = false :=
        decide_eq_false (not_x_infix_occ0_m0 (' ' :: rest) hOcc)
      rw [hX, hY]
      rfl
  · obtain ⟨rest, hrest⟩ := hm
    subst hrest
    have hX0 : markerX <+: markerXs ++ rest := ⟨' ' :: rest, rfl⟩
    rw [toggleLine_actsX taskId _ hinf hX0]
    rw [show (markerXs ++ rest).drop 5 = ' ' :: rest from rfl]
    rw [show marker0 ++ ' ' :: rest = marker0s ++ rest from rfl]
    cases htm : taskMatch (markerXs ++ rest) with
    | none =>
      have htm2 : taskMatch (marker0s ++ rest) = none := by
        rw [taskMatch_flip rest]
        exact htm
      rw [parseLine_eq_none _ htm, parseLine_eq_none _ htm2]
      rfl
    | some cap =>
      have htm2 : taskMatch (marker0s ++ rest) = some cap := by
        rw [taskMatch_flip rest]
        exact htm
      rw [parseLine_eq_some _ _ htm, parseLine_eq_some _ _ htm2]
      have hX : decide (markerX <:+: markerXs ++ rest) = true :=
        decide_eq_true ((List.prefix_append markerX (' ' :: rest)).isInfix)
      have hY : decide (markerX <:+: marker0s ++ rest) = false :=
        decide_eq_false (not_x_infix_occ0_mX (' ' :: rest) hOcc)
      rw [hX, hY]
      rfl

/-- `toggleLine` on the empty line. -/
theorem toggleLine_nil (t : Str) : toggleLine t [] = [] := by
  unfold toggleLine
  rw [if_neg]
  intro h
  have hlen := h.length_le
  rw [idTagStr_length] at hlen
  simp at hlen

/-- `toggleLine` creates no newline. -/
theorem toggleLine_no_nl (t l : Str) (hl : '\n' ∉ l) : '\n' ∉ toggleLine t l := by
  by_cases hinf : idTagStr t <:+: l
  · by_cases h0 : marker0 <+: l
    · rw [toggleLine_acts0 t l hinf h0]
      intro hmem
      rcases List.mem_append.mp hmem with hm | hm
      · exact absurd hm (by decide)
      · exact hl (List.drop_subset 5 l hm)
    · by_cases hX : markerX <+: l
      · rw [toggleLine_actsX t l hinf hX]
        intro hmem
        rcases List.mem_append.mp hmem with hm | hm
        · exact absurd hm (by decide)
        · exact hl (List.drop_subset 5 l hm)
      · rw [toggleLine_not_matching t l (fun hc => (not_or.mpr ⟨h0, hX⟩) hc.2)]
        exact hl
  · rw [toggleLine_not_matching t l (fun hc => hinf hc.1)]
    exact hl

/-- `toggleLine` preserves the first character. -/
theorem toggleLine_head (t l : Str) : (toggleLine t l).head? = l.head? := by
  by_cases hinf : idTagStr t <:+: l
  · by_cases h0 : marker0 <+: l
    · obtain ⟨t0, ht0⟩ := h0
      rw [toggleLine_acts0 t l hinf ⟨t0, ht0⟩, ← ht0]
      rfl
    · by_cases hX : markerX <+: l
      · obtain ⟨t0, ht0⟩ := hX
        rw [toggleLine_actsX t l hinf ⟨t0, ht0⟩, ← ht0]
        rfl
      · rw [toggleLine_not_matching t l (fun hc => (not_or.mpr ⟨h0, hX⟩) hc.2)]
  · rw [toggleLine_not_matching t l (fun hc => hinf hc.1)]

/-- `toggleLine` keeps a non-whitespace last character. -/
theorem toggleLine_last (t l : Str) (c : Char) (hc : l.getLast? = some c)
    (hw : isWsChar c = false) :
    ∃ c2, (toggleLine t l).getLast? = some c2 ∧ isWsChar c2 = false := by
  refine ⟨c, ?_, hw⟩
  by_cases hinf : idTagStr t <:+: l
  · by_cases h0 : marker0 <+: l
    · obtain ⟨t0, ht0⟩ := h0
      rw [toggleLine_acts0 t l hinf ⟨t0, ht0⟩]
      rw [show l.drop 5 = t0 by rw [← ht0]; exact List.drop_left marker0 t0]
      cases t0 with
      | nil =>
        rw [← ht0] at hc
        rw [show (marker0 ++ ([] : Str)).getLast? = some ']' from rfl] at hc
        injection hc with hc
        rw [show (markerX ++ ([] : Str)).getLast? = some ']' from rfl, hc]
      | cons a as =>
        rw [← ht0] at hc
        rw [List.getLast?_append_of_ne_nil _ (by simp : (a :: as) ≠ [])] at hc ⊢
        exact hc
    · by_cases hX : markerX <+: l
      · obtain ⟨t0, ht0⟩ := hX
        rw [toggleLine_actsX t l hinf ⟨t0, ht0⟩]
        rw [show l.drop 5 = t0 by rw [← ht0]; exact List.drop_left markerX t0]
        cases t0 with
        | nil =>
          rw [← ht0] at hc
          rw [show (markerX ++ ([] : Str)).getLast? = some ']' from rfl] at hc
          injection hc with hc
          rw [show (marker0 ++ ([] : Str)).getLast? = some ']' from rfl, hc]
        | cons a as =>
          rw [← ht0] at hc
          rw [List.getLast?_append_of_ne_nil _ (by simp : (a :: as) ≠ [])] at hc ⊢
          exact hc
      · rw [toggleLine_not_matching t l (fun hcond => (not_or.mpr ⟨h0, hX⟩) hcond.2)]
        exact hc
  · rw [toggleLine_not_matching t l (fun hcond => hinf hcond.1)]
    exact hc

/-- The two `docMut_spec` conclusions for the toggle mutation. -/
theorem toggleDoc_split (t d : Str) (hd : trim d = d) :
    trim (joinLines ((splitNl d).map (toggleLine t))) =
        interNl ((splitNl d).map (toggleLine t)) ∧
      splitNl (toggleDoc t d) = (splitNl d).map (toggleLine t) :=
  docMut_spec (toggleLine t) d hd (toggleLine_nil t) (toggleLine_no_nl t)
    (toggleLine_head t) (toggleLine_last t)

/-- Toggling a trim-fixed document twice restores it byte for byte. -/
theorem toggleDoc_invol (t d : Str) (hd : trim d = d) :
    toggleDoc t (toggleDoc t d) = d := by
  have h2 := (toggleDoc_split t d hd).2
  show trim (joinLines ((splitNl (toggleDoc t d)).map (toggleLine t))) = d
  rw [h2, List.map_map]
  have hinv : List.map (toggleLine t ∘ toggleLine t) (splitNl d) = splitNl d := by
    have hc := List.map_congr_left
      (fun l _ => toggleLine_invol t l : ∀ l ∈ splitNl d,
        (toggleLine t ∘ toggleLine t) l = id l)
    rwa [show List.map (fun l : Str => l) (splitNl d) = splitNl d from List.map_id _] at hc
  rw [hinv, joinLines_eq_interNl _ (splitNl_ne_nil d), interNl_splitNl, trim_append_nl, hd]

/-- No synthesized identity is shorter than five characters. -/
theorem taskStr_ne_of_short (s : Str) (hs : s.length < 5) : ∀ n, taskStr n ≠ s := by
  intro n h
  have hnd : natDec n ≠ [] := by
    unfold natDec
    by_cases h0 : n = 0
    · rw [if_pos h0]
      simp
    · rw [if_neg h0]
      cases n with
      | zero => exact absurd rfl h0
      | succ k =>
        show (if k + 1 = 0 then [] else natDecAux k ((k + 1) / 10) ++
          [Nat.digitChar ((k + 1) % 10)]) ≠ []
        rw [if_neg (by omega)]
        simp
  have hlen := congrArg List.length h
  unfold taskStr at hlen
  rw [List.length_append] at hlen
  have hpos : 0 < (natDec n).length := List.length_pos.mpr hnd
  rw [show ("task".data).length = 4 from rfl] at hlen
  omega

/-- Builder fold over toggled lines: with every line well-formed for
`taskId` and `taskId` not a synthesizable identity, toggling flips exactly
the completed flag of the task with that id. -/
theorem foldl_step_toggle (taskId : Str) (hsynth : ∀ n, taskStr n ≠ taskId)
    (ls : List Str) :
    (∀ l ∈ ls,
      (idTagStr taskId <:+: l →
        ((marker0s <+: l ∨ markerXs <+: l) ∧
         ∀ p < l.length, occursAt markerX l p → p = 0)) ∧
      (idTagStr taskId <:+: l ↔ (parseLine l).map RawTask.expId = some (some taskId))) →
    ∀ (uid : Nat) (seen : List Str) (acc : List Task),
      (ls.map (toggleLine taskId)).foldl step ⟨uid, seen, acc.map (flipTask taskId)⟩ =
        ⟨(ls.foldl step ⟨uid, seen, acc⟩).uid,
         (ls.foldl step ⟨uid, seen, acc⟩).seen,
         ((ls.foldl step ⟨uid, seen, acc⟩).acc).map (flipTask taskId)⟩ := by
  induction ls with
  | nil => intro _ uid seen acc; rfl
  | cons l ls ih =>
    intro hOK uid seen acc
    obtain ⟨hOK1, hOK2⟩ := hOK l (List.mem_cons_self _ _)
    have hOKrest := fun l2 hl2 => hOK l2 (List.mem_cons_of_mem _ hl2)
    show (ls.map (toggleLine taskId)).foldl step
        (step ⟨uid, seen, acc.map (flipTask taskId)⟩ (toggleLine taskId l)) =
      ⟨(ls.foldl step (step ⟨uid, seen, acc⟩ l)).uid,
       (ls.foldl step (step ⟨uid, seen, acc⟩ l)).seen,
       ((ls.foldl step (step ⟨uid, seen, acc⟩ l)).acc).map (flipTask taskId)⟩
    by_cases hinf : idTagStr taskId <:+: l
    · obtain ⟨hmark, hOcc⟩ := hOK1 hinf
      have hflip := toggleLine_parse_flip taskId l hinf hmark hOcc
      have hexp := hOK2.mp hinf
      cases hpl : parseLine l with
      | none =>
        rw [hpl] at hexp
        cases hexp
      | some r =>
        rw [hpl] at hexp
        simp only [Option.map_some'] at hexp
        injection hexp with hexp
        have hplg : parseLine (toggleLine taskId l) =
            some { r with completed := !r.completed } := by
          rw [hflip, hpl]
          rfl
        have hstepl : step ⟨uid, seen, acc⟩ l =
            if taskId ∈ seen then ⟨uid, seen, acc⟩
            else ⟨uid, taskId :: seen
                 , acc ++ [{ id := taskId, name := r.name, dependencies := r.deps
                           , completed := r.completed }]⟩ := by
          simp only [step, hpl, hexp]
        have hstepgl : step ⟨uid, seen, acc.map (flipTask taskId)⟩ (toggleLine taskId l) =
            if taskId ∈ seen then ⟨uid, seen, acc.map (flipTask taskId)⟩
            else ⟨uid, taskId :: seen
                 , acc.map (flipTask taskId) ++
                     [{ id := taskId, name := r.name, dependencies := r.deps
                      , completed := !r.completed }]⟩ := by
          simp only [step, hplg, hexp]
        by_cases hmem : taskId ∈ seen
        · rw [hstepgl, if_pos hmem, hstepl, if_pos hmem]
          exact ih hOKrest uid seen acc
        · rw [hstepgl, if_neg hmem, hstepl, if_neg hmem]
          have hmapT : List.map (flipTask taskId)
              (acc ++ [({ id := taskId, name := r.name, dependencies := r.deps,
                          completed := r.completed } : Task)]) =
              List.map (flipTask taskId) acc ++
                [({ id := taskId, name := r.name, dependencies := r.deps,
                    completed := !r.completed } : Task)] := by
            rw [List.map_append]
            congr 1
            show [flipTask taskId _] = _
            unfold flipTask
            rw [if_pos rfl]
          rw [← hmapT]
          exact ih hOKrest uid (taskId :: seen) _
    · have hgl : toggleLine taskId l = l :=
        toggleLine_not_matching taskId l (fun hc => hinf hc.1)
      rw [hgl]
      cases hpl : parseLine l with
      | none =>
        rw [show step ⟨uid, seen, acc.map (flipTask taskId)⟩ l =
            ⟨uid, seen, acc.map (flipTask taskId)⟩ by simp [step, hpl]]
        rw [show step ⟨uid, seen, acc⟩ l = ⟨uid, seen, acc⟩ by simp [step, hpl]]
        exact ih hOKrest uid seen acc
      | some r =>
        cases hre : r.expId with
        | some w =>
          have hwne : w ≠ taskId := by
            intro hw
            apply hinf
            apply hOK2.mpr
            rw [hpl, Option.map_some', hre, hw]
          have hstepl : step ⟨uid, seen, acc⟩ l =
              if w ∈ seen then ⟨uid, seen, acc⟩
              else ⟨uid, w :: seen
                   , acc ++ [{ id := w, name := r.name, dependencies := r.deps
                             , completed := r.completed }]⟩ := by
            simp only [step, hpl, hre]
          have hstepl2 : step ⟨uid, seen, acc.map (flipTask taskId)⟩ l =
              if w ∈ seen then ⟨uid, seen, acc.map (flipTask taskId)⟩
              else ⟨uid, w :: seen
                   , acc.map (flipTask taskId) ++
                       [{ id := w, name := r.name, dependencies := r.deps
                        , completed := r.completed }]⟩ := by
            simp only [step, hpl, hre]
          by_cases hmem : w ∈ seen
          · rw [hstepl2, if_pos hmem, hstepl, if_pos hmem]
            exact ih hOKrest uid seen acc
          · rw [hstepl2, if_neg hmem, hstepl, if_neg hmem]
            have hmapT : List.map (flipTask taskId)
                (acc ++ [({ id := w, name := r.name, dependencies := r.deps,
                            completed := r.completed } : Task)]) =
                List.map (flipTask taskId) acc ++
                  [({ id := w, name := r.name, dependencies := r.deps,
                      completed := r.completed } : Task)] := by
              rw [List.map_append]
              congr 1
              show [flipTask taskId _] = _
              unfold flipTask
              rw [if_neg]
              intro hid
              exact hwne hid
            rw [← hmapT]
            exact ih hOKrest uid (w :: seen) _
        | none =>
          have hne : taskStr uid ≠ taskId := hsynth uid
          have hstepl : step ⟨uid, seen, acc⟩ l =
              if taskStr uid ∈ seen then ⟨uid + 1, seen, acc⟩
              else ⟨uid + 1, taskStr uid :: seen
                   , acc ++ [{ id := taskStr uid, name := r.name, dependencies := r.deps
                             , completed := r.completed }]⟩ := by
            simp only [step, hpl, hre]
          have hstepl2 : step ⟨uid, seen, acc.map (flipTask taskId)⟩ l =
              if taskStr uid ∈ seen then ⟨uid + 1, seen, acc.map (flipTask taskId)⟩
              else ⟨uid + 1, taskStr uid :: seen
                   , acc.map (flipTask taskId) ++
                       [{ id := taskStr uid, name := r.name, dependencies := r.deps
                        , completed := r.completed }]⟩ := by
            simp only [step, hpl, hre]
          by_cases hmem : taskStr uid ∈ seen
          · rw [hstepl2, if_pos hmem, hstepl, if_pos hmem]
            exact ih hOKrest (uid + 1) seen acc
          · rw [hstepl2, if_neg hmem, hstepl, if_neg hmem]
            have hmapT : List.map (flipTask taskId)
                (acc ++ [({ id := taskStr uid, name := r.name, dependencies := r.deps,
                            completed := r.completed } : Task)]) =
                List.map (flipTask taskId) acc ++
                  [({ id := taskStr uid, name := r.name, dependencies := r.deps,
                      completed := r.completed } : Task)] := by
              rw [List.map_append]
              congr 1
              show [flipTask taskId _] = _
              unfold flipTask
              rw [if_neg]
              intro hid
              exact hne hid
            rw [← hmapT]
            exact ih hOKrest (uid + 1) (taskStr uid :: seen) _

/-- C3, counterexample: the one-document corpus `- [ ] a [id:t1]\n` (with a
trailing newline) contains a task with id `t1`, but toggling twice does not
return the corpus byte-for-byte: each toggle pass trims the whole document,
so the trailing newline is lost. -/
theorem C3_counterexample :
    (∃ t ∈ getTasksFromNotes ["- [ ] a [id:t1]\n".data], t.id = "t1".data) ∧
    toggleTaskCompletion "t1".data
        (toggleTaskCompletion "t1".data ["- [ ] a [id:t1]\n".data]) ≠
      ["- [ ] a [id:t1]\n".data] := by
  decide

/-- C3, amended: on corpora whose documents are fixed by `trim`, where the
target id is not a synthesizable identity, and where every line containing
`[id:taskId]` is a marker-headed task line whose only `- [x]` occurrence can
sit at its start and which resolves exactly to that explicit id, toggling
and re-extracting flips `completed` for that id and leaves every other
task's fields unchanged, and toggling twice restores the corpus
byte-for-byte. -/
theorem C3_toggle_roundtrip (corpus : List Str) (taskId : Str)
    (hpres : ∃ t ∈ getTasksFromNotes corpus, t.id = taskId)
    (hsynth : ∀ n, taskStr n ≠ taskId)
    (htrim : ∀ d ∈ corpus, trim d = d)
    (hline : ∀ l ∈ corpusLines corpus,
        (idTagStr taskId <:+: l →
          ((marker0s <+: l ∨ markerXs <+: l) ∧
           ∀ p < l.length, occursAt markerX l p → p = 0)) ∧
        (idTagStr taskId <:+: l ↔ (parseLine l).map RawTask.expId = some (some taskId))) :
    getTasksFromNotes (toggleTaskCompletion taskId corpus) =
      (getTasksFromNotes corpus).map (flipTask taskId) ∧
    toggleTaskCompletion taskId (toggleTaskCompletion taskId corpus) = corpus := by
  constructor
  · have hcl : corpusLines (toggleTaskCompletion taskId corpus) =
        (corpusLines corpus).map (toggleLine taskId) := by
      unfold corpusLines toggleTaskCompletion
      rw [List.map_map, List.map_flatten, List.map_map]
      congr 1
      exact List.map_congr_left
        (fun d hd => (toggleDoc_split taskId d (htrim d hd)).2)
    unfold getTasksFromNotes
    rw [buildState_eq, buildState_eq, hcl]
    have hfold := foldl_step_toggle taskId hsynth (corpusLines corpus) hline 1 [] []
    rw [show (([] : List Task).map (flipTask taskId)) = [] from rfl] at hfold
    rw [hfold]
  · unfold toggleTaskCompletion
    rw [List.map_map]
    have hc := List.map_congr_left
      (fun d hd => toggleDoc_invol taskId d (htrim d hd) :
        ∀ d ∈ corpus, (toggleDoc taskId ∘ toggleDoc taskId) d = id d)
    rwa [show List.map (fun d : Str => d) corpus = corpus from List.map_id _] at hc

/-- Witness for C3_toggle_roundtrip on the trim-fixed one-document corpus
`- [ ] a [id:t1]`. -/
theorem C3_toggle_roundtrip_witness :
    getTasksFromNotes (toggleTaskCompletion "t1".data ["- [ ] a [id:t1]".data]) =
      (getTasksFromNotes ["- [ ] a [id:t1]".data]).map (flipTask "t1".data) ∧
    toggleTaskCompletion "t1".data
        (toggleTaskCompletion "t1".data ["- [ ] a [id:t1]".data]) =
      ["- [ ] a [id:t1]".data] :=
  C3_toggle_roundtrip ["- [ ] a [id:t1]".data] "t1".data
    (by decide) (taskStr_ne_of_short "t1".data (by decide)) (by decide) (by decide)

end TaskPlugin
